import Mathlib

/-!
Verification of the livekit-agents meeting-protocol core: a shallow Lean
embedding of `protocol_agent.py` (live recording: `MultiParticipantProtocol`,
`ProtocolRecorder`, statistics) and `repair_transcripts.py` (offline gap
repair).  Python strings are Lean `String`s, timestamps are seconds-of-day
(`Nat`) or wall-clock seconds (`Int`), file sinks are in-memory lists, and
each handler becomes a pure state-transition function.
-/

/-! ### Python text primitives

`str.split()`, `str.strip()`, `"".join(...)`, `" ".join(...)` and
`len(text.split())` as used throughout both source files.  Python's
`str.split()` with no argument splits on runs of whitespace and drops empty
strings; we model the ASCII whitespace set Python recognises. -/

/-- Whitespace characters recognised by Python's `str.split()` / `str.strip()`
(ASCII range). -/
def pyIsSpace (c : Char) : Bool :=
  c = ' ' || c = '\t' || c = '\n' || c = '\r' || c = '\x0b' || c = '\x0c'

/-- Accumulator-based splitter behind `str.split()`: `acc` holds the reversed
current word. -/
def pyWordsAux : List Char → List Char → List (List Char)
  | [], acc => if acc.isEmpty then [] else [acc.reverse]
  | c :: cs, acc =>
    if pyIsSpace c then
      if acc.isEmpty then pyWordsAux cs [] else acc.reverse :: pyWordsAux cs []
    else pyWordsAux cs (c :: acc)

/-- `text.split()`: the maximal whitespace-free runs of `s`, in order. -/
def pyWords (s : String) : List (List Char) := pyWordsAux s.toList []

/-- `len(text.split())` — the word count used for every `word_count` field. -/
def wordCount (s : String) : Nat := (pyWords s).length

/-- `"".join(raw_text.split())` — the whitespace-removing normalisation of
`get_signature` in `repair_transcripts.py`. -/
def normText (s : String) : String := String.mk (pyWords s).flatten

/-- `' '.join(words)` on character lists. -/
def joinSpace : List (List Char) → List Char
  | [] => []
  | [w] => w
  | w :: ws => w ++ ' ' :: joinSpace ws

/-- `' '.join(text.split())` — the whitespace-collapsing cleanup applied to
restored transcript text in `repair_transcripts.py`. -/
def collapseWS (s : String) : String := String.mk (joinSpace (pyWords s))

/-- `text.strip()` — drop leading and trailing whitespace. -/
def pyStrip (s : String) : String :=
  String.mk (((s.toList.dropWhile pyIsSpace).reverse.dropWhile pyIsSpace).reverse)

/-- Independent characterisation used to check `wordCount`: walk the
characters counting the starts of maximal non-whitespace runs, `prevSpace`
recording whether the previous position was whitespace (or the start). -/
def countRunsAux (prevSpace : Bool) : List Char → Nat
  | [] => 0
  | c :: cs =>
    (if prevSpace && !pyIsSpace c then 1 else 0) + countRunsAux (pyIsSpace c) cs

/-! ### Timestamp parsing

`datetime.strptime(ts, "%H:%M:%S")` from `repair_transcripts.py`.  The
`_strptime` regex accepts one or two digits per field, a two-digit field only
when its value is within the directive's bound (23/59/61), and the `datetime`
constructor then rejects seconds above 59.  Result: seconds of day. -/

/-- Value of an ASCII digit. -/
def digitVal (c : Char) : Nat := c.toNat - '0'.toNat

/-- Is `c` an ASCII digit? -/
def isAsciiDigit (c : Char) : Bool := '0' ≤ c && c ≤ '9'

/-- Parse one `%H`/`%M`/`%S` field: two digits if the two-digit value is
`≤ hi`, otherwise one digit.  Returns the value and the remaining input. -/
def takeField (hi : Nat) : List Char → Option (Nat × List Char)
  | [] => none
  | [c] => if isAsciiDigit c then some (digitVal c, []) else none
  | c1 :: c2 :: rest =>
    if isAsciiDigit c1 then
      if isAsciiDigit c2 && decide (digitVal c1 * 10 + digitVal c2 ≤ hi) then
        some (digitVal c1 * 10 + digitVal c2, rest)
      else some (digitVal c1, c2 :: rest)
    else none

/-- `datetime.strptime(s, "%H:%M:%S")`, as seconds of day; `none` models the
`ValueError` path. -/
def parseHMS (s : String) : Option Nat :=
  match takeField 23 s.toList with
  | none => none
  | some (h, r1) =>
    match r1 with
    | ':' :: r1' =>
      match takeField 59 r1' with
      | none => none
      | some (m, r2) =>
        match r2 with
        | ':' :: r2' =>
          match takeField 61 r2' with
          | none => none
          | some (sec, r3) =>
            if r3 = [] && decide (sec ≤ 59) then some (h * 3600 + m * 60 + sec)
            else none
        | _ => none
    | _ => none

/-! ### The record model

One JSON-Lines object of the structured stream.  A missing key read through
`evt.get(k, '')`/`if evt.get('timestamp'):` behaves exactly like `""`, so
absent fields are modelled as `""`/`0`.  `rtype` is the `type` discriminator:
`"header"`, `"footer"`, `"transcript"`, `"event"` (other values flow through
the repair tool's core path unchanged, as in the source). -/

structure EventRec where
  rtype : String
  timestamp : String := ""
  participant : String := ""
  text : String := ""
  event : String := ""
  word_count : Nat := 0
  ended_at : String := ""
deriving DecidableEq, Repr

/-! ### RepairEngine (`repair_transcripts.py`) -/

/-- `SESSION_START_STR = "2026-01-29 19:52:22"` as seconds of day (the log
pre-filter pins every candidate to that date). -/
def SESSION_START_SEC : Nat := 19 * 3600 + 52 * 60 + 22

/-- `SESSION_END_STR = "2026-01-29 23:15:00"` as seconds of day. -/
def SESSION_END_SEC : Nat := 23 * 3600 + 15 * 60

/-- `get_signature(evt)`: `"_".join([ts, type, participant, payload])` where
the payload is the whitespace-stripped text for transcripts and the lifecycle
kind otherwise. -/
def get_signature (evt : EventRec) : String :=
  String.intercalate "_"
    ([evt.timestamp, evt.rtype, evt.participant] ++
      (if evt.rtype = "transcript" then [normText evt.text] else [evt.event]))

/-- The core records: everything that is neither the header nor the footer. -/
def coreEvents (evts : List EventRec) : List EventRec :=
  evts.filter (fun e => !(e.rtype == "header") && !(e.rtype == "footer"))

/-- The header retained by the load loop (the last `type == "header"` line
wins, matching repeated assignment in the loop). -/
def lastHeader (evts : List EventRec) : Option EventRec :=
  (evts.filter (fun e => e.rtype == "header")).getLast?

/-- The footer retained by the load loop. -/
def lastFooter (evts : List EventRec) : Option EventRec :=
  (evts.filter (fun e => e.rtype == "footer")).getLast?

/-- `evt.get('timestamp')` guarded by truthiness, then
`datetime.strptime(..., "%H:%M:%S")`; `none` models both the missing-key skip
and the `ValueError` skip. -/
def recTime (e : EventRec) : Option Nat :=
  if e.timestamp = "" then none else parseHMS e.timestamp

/-- The merge-site parse: `datetime.strptime(f"2026-01-29 {ts}",
"%Y-%m-%d %H:%M:%S")` guarded by the same truthiness check.  CPython's
`_strptime` replaces the format's literal whitespace by the regex `\s+`, so
the space before `{ts}` absorbs any leading whitespace of the timestamp
string; what remains must then parse exactly as `%H:%M:%S`.  This parse is
strictly more lenient than `recTime`: it also accepts timestamps with leading
whitespace. -/
def mergeTime (e : EventRec) : Option Nat :=
  if e.timestamp = "" then none
  else parseHMS (String.mk (e.timestamp.toList.dropWhile pyIsSpace))

/-- Stable insertion used to model Python's stable `list.sort(key=...)`:
an element is inserted after earlier elements with `≤` key. -/
def insertByKey {α : Type} (key : α → Nat) (x : α) : List α → List α
  | [] => [x]
  | y :: ys => if key x ≤ key y then x :: y :: ys else y :: insertByKey key x ys

/-- Stable sort by a `Nat` key (Python `list.sort(key=...)` is stable). -/
def pySortBy {α : Type} (key : α → Nat) : List α → List α
  | [] => []
  | x :: xs => insertByKey key x (pySortBy key xs)

/-- Gap scan over the time-sorted record times: every consecutive pair more
than 60 seconds apart. -/
def gapsOf : List Nat → List (Nat × Nat)
  | a :: b :: rest => (if 60 < b - a then [(a, b)] else []) ++ gapsOf (b :: rest)
  | _ => []

/-- Gap detection for a list of records: keep the parseable timestamps, sort,
scan consecutive pairs. -/
def detectGaps (core : List EventRec) : List (Nat × Nat) :=
  gapsOf (pySortBy id (core.filterMap recTime))

/-- Does `t` fall strictly inside one of the gaps
(`g_start < evt_full_dt < g_end`)? -/
def inGap (gaps : List (Nat × Nat)) (t : Nat) : Bool :=
  gaps.any (fun g => g.1 < t && t < g.2)

/-- One successfully parsed diagnostic-trace line (the output of
`parse_log_line`): `isTranscript` selects between the two grammars,
`evt_dt` is the line's own `datetime` (seconds of day — the pre-filter fixes
the date), `timestamp` is the record's `timestamp` field (for transcripts the
bracketed time, which the grammar does not tie to `evt_dt`), `text` is the
stripped transcript text, `event` the lifecycle kind. -/
structure Cand where
  isTranscript : Bool
  evt_dt : Nat
  timestamp : String
  participant : String
  text : String
  event : String
deriving DecidableEq, Repr

/-- The parsed dict as a record, before the whitespace cleanup (signatures are
taken from this form). -/
def candRaw (c : Cand) : EventRec :=
  if c.isTranscript then
    { rtype := "transcript", timestamp := c.timestamp,
      participant := c.participant, text := c.text,
      word_count := wordCount c.text }
  else
    { rtype := "event", timestamp := c.timestamp,
      participant := c.participant, event := c.event }

/-- The signature a trace candidate is deduplicated by. -/
def sigOfCand (c : Cand) : String := get_signature (candRaw c)

/-- The record finally stored for an admitted candidate: transcript text is
whitespace-collapsed and the word count recomputed. -/
def candToRec (c : Cand) : EventRec :=
  if c.isTranscript then
    { rtype := "transcript", timestamp := c.timestamp,
      participant := c.participant, text := collapseWS c.text,
      word_count := wordCount (collapseWS c.text) }
  else
    { rtype := "event", timestamp := c.timestamp,
      participant := c.participant, event := c.event }

/-- The trace scan of `main`: session-bound check, gap check, then
deduplication against the existing signatures and the signatures restored so
far; admitted candidates are kept with their sort datetime. -/
def scanTrace (gaps : List (Nat × Nat)) (existing_sigs : List String) :
    List Cand → List String → List (Nat × EventRec)
  | [], _ => []
  | c :: cs, restored_sigs =>
    if SESSION_START_SEC ≤ c.evt_dt ∧ c.evt_dt ≤ SESSION_END_SEC then
      if inGap gaps c.evt_dt then
        if ¬ sigOfCand c ∈ existing_sigs ∧ ¬ sigOfCand c ∈ restored_sigs then
          (c.evt_dt, candToRec c) ::
            scanTrace gaps existing_sigs cs (sigOfCand c :: restored_sigs)
        else scanTrace gaps existing_sigs cs restored_sigs
      else scanTrace gaps existing_sigs cs restored_sigs
    else scanTrace gaps existing_sigs cs restored_sigs

/-- The footer synthesised when the input stream has none. -/
def synthFooter : EventRec := { rtype := "footer", ended_at := "23:13:30" }

/-- The whole repair pass over an already-loaded structured stream and an
already-parsed diagnostic trace: split off header/footer, collect signatures,
detect gaps (timestamps parsed with the strict `%H:%M:%S` parse, line 122),
admit trace candidates, merge the existing records whose timestamps pass the
merge-site parse (the date-prefixed `%Y-%m-%d %H:%M:%S` parse of line 202,
modelled by `mergeTime`) with the restored ones by a stable time sort, and
emit header + merged core + footer. -/
def repair (existing_events : List EventRec) (trace : List Cand) :
    List EventRec :=
  let core := coreEvents existing_events
  let existing_sigs := core.map get_signature
  let gaps := detectGaps core
  let restored := scanTrace gaps existing_sigs trace []
  let keptExisting :=
    core.filterMap (fun e => (mergeTime e).map (fun t => (t, e)))
  let all_events := (pySortBy Prod.fst (keptExisting ++ restored)).map Prod.snd
  (lastHeader existing_events).toList ++ all_events ++
    [(lastFooter existing_events).getD synthFooter]

/-! ### Statistics (`ParticipantStats`, `ProtocolStats`) -/

/-- Python's `round(x, 1)` uses round-half-to-even; on exact decimals we model
it over `ℚ`: round `10 * x` to the nearest integer, ties to the even one. -/
def pyRoundHalfEven (x : ℚ) : ℤ :=
  if x - ⌊x⌋ < 1 / 2 then ⌊x⌋
  else if 1 / 2 < x - ⌊x⌋ then ⌈x⌉
  else if Even ⌊x⌋ then ⌊x⌋ else ⌈x⌉

/-- `round(x, 1)` over `ℚ`. -/
def pyRound1 (x : ℚ) : ℚ := (pyRoundHalfEven (10 * x) : ℚ) / 10

/-- `ParticipantStats` dataclass. -/
structure ParticipantStats where
  identity : String
  name : String := ""
  joined_at : String := ""
  left_at : String := ""
  word_count : Nat := 0
  turn_count : Nat := 0
  characters : Nat := 0
deriving DecidableEq, Repr

/-- The `avg_words_per_turn` entry of `ParticipantStats.to_dict`:
`round(self.word_count / max(self.turn_count, 1), 1)`. -/
def ParticipantStats.avg_words_per_turn (s : ParticipantStats) : ℚ :=
  pyRound1 ((s.word_count : ℚ) / max (s.turn_count : ℚ) 1)

/-- `ProtocolStats` dataclass; `participants` keeps dict insertion order. -/
structure ProtocolStats where
  room_name : String := ""
  started_at : String := ""
  ended_at : String := ""
  participants : List (String × ParticipantStats) := []
  total_turns : Nat := 0
  total_words : Nat := 0
deriving DecidableEq, Repr

/-- In-place update of a dict value (no-op on a missing key). -/
def updateAssoc (k : String) (f : ParticipantStats → ParticipantStats) :
    List (String × ParticipantStats) → List (String × ParticipantStats)
  | [] => []
  | (k', v) :: rest =>
    if k' = k then (k', f v) :: rest else (k', v) :: updateAssoc k f rest

/-- Does the dict have the key? -/
def hasKey (k : String) (l : List (String × ParticipantStats)) : Bool :=
  l.any (fun p => p.1 == k)

/-- `ProtocolStats.record_speech`: create the participant entry on first
speech, then bump its word/turn/character counters and the store totals. -/
def ProtocolStats.record_speech (st : ProtocolStats) (pid text : String) :
    ProtocolStats :=
  let ps := if hasKey pid st.participants then st.participants
            else st.participants ++ [(pid, { identity := pid })]
  let wc := wordCount text
  { st with
    participants := updateAssoc pid (fun s =>
      { s with word_count := s.word_count + wc,
               turn_count := s.turn_count + 1,
               characters := s.characters + text.length }) ps,
    total_turns := st.total_turns + 1,
    total_words := st.total_words + wc }

/-! ### MultiParticipantProtocol as a state machine

File handles become `*_open` flags plus the accumulated file contents; the
asynchronous session bookkeeping is collapsed to its effect on `_sessions`
(the session created by `_start_session` registered on task completion).
`last_speech` times are wall-clock seconds (`Int`, from `datetime.now()`),
`get_timestamp()` strings are passed in by the driver. -/

/-- The configuration fields the core reads (`ProtocolConfig`). -/
structure ProtocolConfig where
  stt_provider : String := "deepgram"
  output_format : String := "both"
  enable_statistics : Bool := true
  idle_timeout_minutes : Nat := 5
deriving DecidableEq, Repr

/-- State of one `MultiParticipantProtocol` plus the room membership the
runtime reports to it. -/
structure MPState where
  config : ProtocolConfig := {}
  isInit : Bool := false
  txt_open : Bool := false
  json_open : Bool := false
  txt_file : List String := []
  json_file : List EventRec := []
  stats_file : Option ProtocolStats := none
  stats : ProtocolStats := {}
  last_speech : List (String × Int) := []
  sessions : List String := []
  all_idle : Bool := false
  room : List String := []
deriving DecidableEq, Repr

/-- Dict assignment `d[k] = v` (update in place, else append). -/
def setAssoc (k : String) (v : Int) :
    List (String × Int) → List (String × Int)
  | [] => [(k, v)]
  | (k', v') :: rest =>
    if k' = k then (k', v) :: rest else (k', v') :: setAssoc k v rest

/-- Dict lookup `d.get(k)`. -/
def lookupAssoc (k : String) : List (String × Int) → Option Int
  | [] => none
  | (k', v) :: rest => if k' = k then some v else lookupAssoc k rest

/-- The fixed TXT header block (contents abstracted to one sink line). -/
def txtHeaderLine (cfg : ProtocolConfig) : String :=
  "Meeting Protocol header (STT " ++ cfg.stt_provider ++ ")"

/-- `initialize()`: idempotent guard, then create both sinks (header first,
handle kept open) according to the output format. -/
def initProtocolFiles (s : MPState) (ts : String) : MPState :=
  if s.isInit then s
  else
    let s1 := { s with isInit := true }
    let s2 :=
      if s1.config.output_format = "txt" ∨ s1.config.output_format = "both" then
        { s1 with txt_file := [txtHeaderLine s1.config], txt_open := true }
      else s1
    if s2.config.output_format = "json" ∨ s2.config.output_format = "both" then
      { s2 with
        json_file := [{ rtype := "header", timestamp := ts }], json_open := true }
    else s2

/-- The TXT closing block (contents abstracted to one sink line). -/
def txtFooterLine (ts : String) : String := "Meeting ended - " ++ ts

/-- `_finalize_protocol_files()`: footer + close per still-open sink, then —
regardless of the sinks — write the statistics artifact when enabled. -/
def finalize_protocol_files (s : MPState) (ts : String) : MPState :=
  let s1 :=
    if s.txt_open then
      { s with txt_file := s.txt_file ++ [txtFooterLine ts], txt_open := false }
    else s
  let s2 :=
    if s1.json_open then
      { s1 with
        json_file := s1.json_file ++ [{ rtype := "footer", ended_at := ts }],
        json_open := false }
    else s1
  if s2.config.enable_statistics then { s2 with stats_file := some s2.stats }
  else s2

/-- `write_transcript`: refresh the participant's last-speech clock, record
statistics when enabled, then append one line/record to each open sink. -/
def write_transcript (s : MPState) (timestamp participant text : String)
    (now : Int) : MPState :=
  let s1 := { s with last_speech := setAssoc participant now s.last_speech }
  let s2 :=
    if s1.config.enable_statistics then
      { s1 with stats := s1.stats.record_speech participant text }
    else s1
  let s3 :=
    if s2.txt_open then
      { s2 with txt_file := s2.txt_file ++
          ["[" ++ timestamp ++ "] " ++ participant ++ ": " ++ text] }
    else s2
  if s3.json_open then
    { s3 with json_file := s3.json_file ++
        [{ rtype := "transcript", timestamp := timestamp,
           participant := participant, text := text,
           word_count := wordCount text }] }
  else s3

/-- The TXT marker line for a lifecycle event. -/
def eventTxtLine (timestamp participant event_type : String) : String :=
  if event_type = "joined" then
    "[" ++ timestamp ++ "] >>> " ++ participant ++ " joined the meeting"
  else if event_type = "idle_timeout" then
    "[" ++ timestamp ++ "] " ++ participant ++ " session paused (idle timeout)"
  else if event_type = "resumed" then
    "[" ++ timestamp ++ "] " ++ participant ++ " session resumed"
  else "[" ++ timestamp ++ "] <<< " ++ participant ++ " left the meeting"

/-- `_write_participant_event`: one marker line / one event record per open
sink. -/
def write_participant_event (s : MPState)
    (timestamp participant event_type : String) : MPState :=
  let s1 :=
    if s.txt_open then
      { s with txt_file := s.txt_file ++ [eventTxtLine timestamp participant event_type] }
    else s
  if s1.json_open then
    { s1 with json_file := s1.json_file ++
        [{ rtype := "event", timestamp := timestamp,
           participant := participant, event := event_type }] }
  else s1

/-- `ProtocolRecorder.on_user_turn_completed`: discard a missing, empty or
whitespace-only transcript (`StopResponse` without writing), otherwise forward
the raw text to `write_transcript`. -/
def on_user_turn_completed (s : MPState) (identity : String)
    (text_content : Option String) (timestamp : String) (now : Int) : MPState :=
  match text_content with
  | none => s
  | some t => if pyStrip t = "" then s else write_transcript s timestamp identity t now

/-- `_on_participant_connected`: ignore an identity that already has an active
session; otherwise seed the last-speech clock, create the statistics entry if
new, write the `joined` event and start a session. -/
def on_participant_connected (s : MPState) (identity pname : String)
    (timestamp : String) (now : Int) : MPState :=
  if identity ∈ s.sessions then s
  else
    let s1 := { s with last_speech := setAssoc identity now s.last_speech }
    let s2 :=
      if hasKey identity s1.stats.participants then s1
      else
        { s1 with stats := { s1.stats with participants :=
            s1.stats.participants ++
              [(identity,
                { identity := identity,
                  name := if pname = "" then identity else pname,
                  joined_at := timestamp })] } }
    let s3 := write_participant_event s2 timestamp identity "joined"
    { s3 with sessions := s3.sessions ++ [identity] }

/-- `_on_participant_disconnected`: no-op without an active session; otherwise
drop the session, stamp `left_at`, write the `left` event. -/
def on_participant_disconnected (s : MPState) (identity : String)
    (timestamp : String) : MPState :=
  if identity ∈ s.sessions then
    let s1 := { s with sessions := s.sessions.filter (fun i => !(i == identity)) }
    let ps := updateAssoc identity (fun p => { p with left_at := timestamp })
      s1.stats.participants
    let s2 := { s1 with stats := { s1.stats with participants := ps } }
    write_participant_event s2 timestamp identity "left"
  else s

/-- The idle scan of `_idle_check_loop`: walk the last-speech entries, skip
participants without an active session, return `none` as soon as one active
participant is below the timeout (the `break`), otherwise collect
`(identity, idle seconds)`. -/
def idleScan (sessions : List String) (timeout now : Int) :
    List (String × Int) → Option (List (String × Int))
  | [] => some []
  | (pid, last) :: rest =>
    if pid ∈ sessions then
      if now - last < timeout then none
      else (idleScan sessions timeout now rest).map (fun l => (pid, now - last) :: l)
    else idleScan sessions timeout now rest

/-- One iteration body of `_idle_check_loop`: when every tracked active
participant is idle past the timeout and at least one was collected, close
each collected session, write its `idle_timeout` event and raise the
group-idle flag; otherwise leave the state untouched. -/
def idle_check_step (s : MPState) (now : Int) (timestamp : String) : MPState :=
  if s.sessions = [] then s
  else
    let timeout : Int := (s.config.idle_timeout_minutes : Int) * 60
    match idleScan s.sessions timeout now s.last_speech with
    | none => s
    | some idle_info =>
      if idle_info = [] then s
      else
        let s1 := idle_info.foldl (fun st p =>
          if p.1 ∈ st.sessions then
            let st1 := { st with sessions := st.sessions.filter (fun i => !(i == p.1)) }
            write_participant_event st1 timestamp p.1 "idle_timeout"
          else st) s
        { s1 with all_idle := true }

/-- `_restart_sessions_after_idle`: for every room participant without a
session, reset its last-speech clock, write `resumed`, start a session. -/
def restart_sessions_after_idle (s : MPState) (timestamp : String)
    (now : Int) : MPState :=
  s.room.foldl (fun st pid =>
    if pid ∈ st.sessions then st
    else
      let st1 := { st with last_speech := setAssoc pid now st.last_speech }
      let st2 := write_participant_event st1 timestamp pid "resumed"
      { st2 with sessions := st2.sessions ++ [pid] }) s

/-- The audio branch of `_on_track_subscribed`: restart after idle. -/
def on_track_subscribed_audio (s : MPState) (identity : String)
    (timestamp : String) (now : Int) : MPState :=
  if s.all_idle ∧ ¬ identity ∈ s.sessions then
    restart_sessions_after_idle { s with all_idle := false } timestamp now
  else s

/-- The runtime notifications and timer ticks driving the manager. -/
inductive AgentEv
  | connect (id pname ts : String) (now : Int)
  | disconnect (id ts : String)
  | idleCheck (ts : String) (now : Int)
  | trackAudio (id ts : String) (now : Int)
  | turn (id : String) (text : Option String) (ts : String) (now : Int)
  | finalizeEv (ts : String)

/-- Apply one notification: room membership tracks connects/disconnects, the
rest dispatches to the handlers above. -/
def applyEv (s : MPState) : AgentEv → MPState
  | .connect id pname ts now =>
    on_participant_connected
      { s with room := if id ∈ s.room then s.room else s.room ++ [id] }
      id pname ts now
  | .disconnect id ts =>
    on_participant_disconnected
      { s with room := s.room.filter (fun i => !(i == id)) } id ts
  | .idleCheck ts now => idle_check_step s now ts
  | .trackAudio id ts now => on_track_subscribed_audio s id ts now
  | .turn id text ts now => on_user_turn_completed s id text ts now
  | .finalizeEv ts => finalize_protocol_files s ts

/-- Run a whole notification history from a freshly initialised manager. -/
def runEvents (cfg : ProtocolConfig) (ts0 : String) (evs : List AgentEv) :
    MPState :=
  evs.foldl applyEv (initProtocolFiles { config := cfg } ts0)

/-- The lifecycle kinds the live recorder actually writes. -/
def writtenKinds : List String := ["joined", "left", "idle_timeout", "resumed"]

/-- Every event-typed record in the list carries one of the written kinds. -/
def eventKindsOK (l : List EventRec) : Prop :=
  ∀ r ∈ l, r.rtype = "event" → r.event ∈ writtenKinds

/-! ### Concrete instances used in the claim checks -/

/-- A well-formed two-record structured stream (5-minute hole between the two
transcripts). -/
def exStream : List EventRec :=
  [{ rtype := "transcript", timestamp := "20:00:00", participant := "P",
     text := "x", word_count := 1 },
   { rtype := "transcript", timestamp := "20:05:00", participant := "P",
     text := "y", word_count := 1 }]

/-- A trace transcript line logged at 20:01:00 whose bracketed time reads
20:20:00 (`parse_log_line` captures the two times independently). -/
def exCandSkew : Cand :=
  { isTranscript := true, evt_dt := 72060, timestamp := "20:20:00",
    participant := "Alice", text := "a", event := "" }

/-- A trace transcript line at 20:10:00 with an agreeing bracketed time. -/
def exCandLate : Cand :=
  { isTranscript := true, evt_dt := 72600, timestamp := "20:10:00",
    participant := "Bob", text := "b", event := "" }

/-- The two-line diagnostic trace for the idempotence counterexample. -/
def exTrace : List Cand := [exCandSkew, exCandLate]

/-- A trace line at 20:01:00 whose bracketed time agrees with the log time. -/
def exCandGood : Cand :=
  { isTranscript := true, evt_dt := 72060, timestamp := "20:01:00",
    participant := "Alice", text := "a", event := "" }

/-- A single-line trace satisfying the timestamp-agreement hypothesis. -/
def exGoodTrace : List Cand := [exCandGood]

/-- Core records at 10:00:00 and 10:02:00 (120 s apart). -/
def exGapStream : List EventRec :=
  [{ rtype := "transcript", timestamp := "10:00:00", participant := "A",
     text := "u", word_count := 1 },
   { rtype := "transcript", timestamp := "10:02:00", participant := "B",
     text := "v", word_count := 1 }]

/-- Core records at 10:00:00 and 10:00:30 (30 s apart). -/
def exNoGapStream : List EventRec :=
  [{ rtype := "transcript", timestamp := "10:00:00", participant := "A",
     text := "u", word_count := 1 },
   { rtype := "transcript", timestamp := "10:00:30", participant := "B",
     text := "v", word_count := 1 }]

/-- A core record whose timestamp does not parse as `%H:%M:%S` and does not
pass the merge-site parse either. -/
def exBadRec : EventRec :=
  { rtype := "transcript", timestamp := "99:99:99", participant := "Q",
    text := "z", word_count := 1 }

/-- A core record whose timestamp fails the strict `%H:%M:%S` parse (leading
space) but passes the merge-site parse, which absorbs leading whitespace. -/
def exWsRec : EventRec :=
  { rtype := "transcript", timestamp := " 1:02:03", participant := "Q",
    text := "z", word_count := 1 }

/-- A freshly constructed manager: `initialize` never called, both sinks
closed, default configuration (statistics enabled). -/
def exFresh : MPState := {}

/-- A manager whose structured sink is open (txt format off for brevity). -/
def exOpenStore : MPState := { json_open := true }

/-- An open-sink manager with one tracked active participant that has been
silent since time 0. -/
def exIdleState : MPState :=
  { json_open := true, sessions := ["A"], last_speech := [("A", 0)] }

/-- Two tracked active participants: A silent for 10 minutes, B for 1 minute,
at `now = 600` with the default 5-minute timeout. -/
def exTwoActive : MPState :=
  { sessions := ["A", "B"], last_speech := [("A", 0), ("B", 540)] }

/-- Statistics row with 7 words over 0 turns. -/
def exStats7 : ParticipantStats := { identity := "p", word_count := 7 }

/-! ## Lemmas about the text primitives -/

/-- Every word produced by the splitter is nonempty and whitespace-free
(given a whitespace-free accumulator). -/
theorem pyWordsAux_good : ∀ (l acc : List Char),
    (∀ c ∈ acc, pyIsSpace c = false) →
    ∀ w ∈ pyWordsAux l acc, w ≠ [] ∧ ∀ c ∈ w, pyIsSpace c = false := by
  intro l
  induction l with
  | nil =>
    intro acc hacc w hw
    cases acc with
    | nil => simp [pyWordsAux] at hw
    | cons a as =>
      simp [pyWordsAux] at hw
      subst hw
      refine ⟨by simp, ?_⟩
      intro c hc
      rw [← List.reverse_cons] at hc
      exact hacc c (List.mem_reverse.mp hc)
  | cons c cs ih =>
    intro acc hacc w hw
    by_cases hsp : pyIsSpace c = true
    · cases acc with
      | nil =>
        simp [pyWordsAux, hsp] at hw
        exact ih [] (by simp) w hw
      | cons a as =>
        simp [pyWordsAux, hsp] at hw
        rcases hw with hw | hw
        · subst hw
          refine ⟨by simp, ?_⟩
          intro d hd
          rw [← List.reverse_cons] at hd
          exact hacc d (List.mem_reverse.mp hd)
        · exact ih [] (by simp) w hw
    · simp [pyWordsAux, hsp] at hw
      refine ih (c :: acc) ?_ w hw
      intro d hd
      rcases List.mem_cons.mp hd with h | h
      · subst h; simpa using hsp
      · exact hacc d h

/-- Words of a string are nonempty and whitespace-free. -/
theorem pyWords_good (s : String) :
    ∀ w ∈ pyWords s, w ≠ [] ∧ ∀ c ∈ w, pyIsSpace c = false :=
  pyWordsAux_good s.toList [] (by simp)

/-- Splitting a whitespace-free block followed by a space: the accumulator and
block close into one word. -/
theorem pyWordsAux_append_space : ∀ (w : List Char) (t acc : List Char),
    (∀ c ∈ w, pyIsSpace c = false) →
    pyWordsAux (w ++ ' ' :: t) acc =
      (if acc = [] ∧ w = [] then pyWordsAux t []
       else (acc.reverse ++ w) :: pyWordsAux t []) := by
  intro w
  induction w with
  | nil =>
    intro t acc _
    cases acc with
    | nil => simp [pyWordsAux, pyIsSpace]
    | cons a as => simp [pyWordsAux, pyIsSpace]
  | cons c w' ih =>
    intro t acc hw
    have hc : pyIsSpace c = false := hw c (by simp)
    have hw' : ∀ d ∈ w', pyIsSpace d = false := fun d hd => hw d (by simp [hd])
    have hstep : pyWordsAux ((c :: w') ++ ' ' :: t) acc =
        pyWordsAux (w' ++ ' ' :: t) (c :: acc) := by
      simp [pyWordsAux, hc]
    rw [hstep, ih t (c :: acc) hw']
    simp

/-- Splitting a trailing whitespace-free block. -/
theorem pyWordsAux_final : ∀ (w acc : List Char),
    (∀ c ∈ w, pyIsSpace c = false) →
    pyWordsAux w acc =
      (if acc = [] ∧ w = [] then [] else [acc.reverse ++ w]) := by
  intro w
  induction w with
  | nil =>
    intro acc _
    cases acc with
    | nil => simp [pyWordsAux]
    | cons a as => simp [pyWordsAux]
  | cons c w' ih =>
    intro acc hw
    have hc : pyIsSpace c = false := hw c (by simp)
    have hw' : ∀ d ∈ w', pyIsSpace d = false := fun d hd => hw d (by simp [hd])
    have hstep : pyWordsAux (c :: w') acc = pyWordsAux w' (c :: acc) := by
      simp [pyWordsAux, hc]
    rw [hstep, ih (c :: acc) hw']
    simp

/-- Splitting the space-join of a list of good words recovers the list. -/
theorem pyWordsAux_joinSpace : ∀ (ws : List (List Char)),
    (∀ w ∈ ws, w ≠ [] ∧ ∀ c ∈ w, pyIsSpace c = false) →
    pyWordsAux (joinSpace ws) [] = ws := by
  intro ws
  induction ws with
  | nil => intro _; simp [joinSpace, pyWordsAux]
  | cons w ws' ih =>
    intro hgood
    rcases hgood w (by simp) with ⟨hne, hfree⟩
    cases ws' with
    | nil =>
      simp only [joinSpace]
      rw [pyWordsAux_final w [] hfree]
      simp [hne]
    | cons w2 ws'' =>
      simp only [joinSpace]
      rw [pyWordsAux_append_space w _ [] hfree]
      simp only [hne, List.reverse_nil, List.nil_append, and_false, if_false]
      rw [ih (fun v hv => hgood v (by simp [hv]))]

/-- Words of a rebuilt character list. -/
theorem pyWords_mk (l : List Char) : pyWords (String.mk l) = pyWordsAux l [] := rfl

/-- Collapsing whitespace does not change the word list. -/
theorem pyWords_collapseWS (s : String) : pyWords (collapseWS s) = pyWords s := by
  unfold collapseWS
  rw [pyWords_mk]
  exact pyWordsAux_joinSpace (pyWords s) (pyWords_good s)

/-- Collapsing whitespace does not change the whitespace-removed
normalisation: the signature of a cleaned-up transcript equals the signature
taken before cleanup. -/
theorem normText_collapseWS (s : String) : normText (collapseWS s) = normText s := by
  unfold normText
  rw [pyWords_collapseWS]

/-- Collapsing whitespace does not change the recomputed word count. -/
theorem wordCount_collapseWS (s : String) : wordCount (collapseWS s) = wordCount s := by
  unfold wordCount
  rw [pyWords_collapseWS]

/-- The number of split words is the number of maximal non-whitespace runs. -/
theorem pyWordsAux_length : ∀ (l acc : List Char),
    (pyWordsAux l acc).length =
      if acc.isEmpty then countRunsAux true l else 1 + countRunsAux false l := by
  intro l
  induction l with
  | nil => intro acc; cases acc <;> simp [pyWordsAux, countRunsAux]
  | cons c cs ih =>
    intro acc
    by_cases hsp : pyIsSpace c = true
    · cases acc <;> simp [pyWordsAux, hsp, countRunsAux, ih, Nat.add_comm]
    · have hsp' : pyIsSpace c = false := by simpa using hsp
      cases acc <;> simp [pyWordsAux, hsp', countRunsAux, ih, Nat.add_comm]

/-- `len(text.split())` counts exactly the maximal non-whitespace runs of the
text. -/
theorem wordCount_eq_countRuns (s : String) :
    wordCount s = countRunsAux true s.toList := by
  unfold wordCount pyWords
  rw [pyWordsAux_length]
  simp

/-- `dropWhile` of an all-satisfying list is empty. -/
theorem dropWhile_eq_nil_of_all {p : Char → Bool} :
    ∀ l : List Char, (∀ c ∈ l, p c = true) → l.dropWhile p = [] := by
  intro l
  induction l with
  | nil => intro _; rfl
  | cons c cs ih =>
    intro h
    have hc : p c = true := h c (by simp)
    simp only [List.dropWhile, hc]
    exact ih (fun d hd => h d (by simp [hd]))

/-- Stripping an all-whitespace string yields the empty string. -/
theorem pyStrip_eq_empty (s : String)
    (h : ∀ c ∈ s.toList, pyIsSpace c = true) : pyStrip s = "" := by
  unfold pyStrip
  rw [dropWhile_eq_nil_of_all s.toList h]
  rfl

/-! ## Arithmetic and dictionary helper lemmas -/

/-- Rounding an integer-valued rational to one decimal returns it exactly. -/
theorem pyRound1_natCast (n : ℕ) : pyRound1 (n : ℚ) = n := by
  have h10 : (10 : ℚ) * (n : ℚ) = ((10 * n : ℕ) : ℚ) := by push_cast; ring
  unfold pyRound1 pyRoundHalfEven
  rw [h10, Int.floor_natCast]
  norm_num

/-- Looking up a key just assigned returns the assigned value. -/
theorem lookupAssoc_setAssoc (k : String) (v : Int) :
    ∀ l : List (String × Int), lookupAssoc k (setAssoc k v l) = some v := by
  intro l
  induction l with
  | nil => simp [setAssoc, lookupAssoc]
  | cons e rest ih =>
    obtain ⟨k', v'⟩ := e
    by_cases hk : k' = k
    · simp [setAssoc, lookupAssoc, hk]
    · simp [setAssoc, lookupAssoc, hk, ih]

/-! ## C4 — average words per turn -/

/-- C4: for every participant statistics record the reported
`avg_words_per_turn` is `word_count / max(turn_count, 1)` rounded to one
decimal; the divisor is never zero, and with zero turns the average is the
plain word count (so `word_count = 7`, `turn_count = 0` yields `7.0` rather
than a division-by-zero error). -/
theorem avg_words_per_turn_spec (s : ParticipantStats) :
    max (s.turn_count : ℚ) 1 ≠ 0 ∧
    s.avg_words_per_turn =
      pyRound1 ((s.word_count : ℚ) / max (s.turn_count : ℚ) 1) ∧
    (s.turn_count = 0 → s.avg_words_per_turn = (s.word_count : ℚ)) := by
  refine ⟨?_, rfl, ?_⟩
  · have h1 : (1 : ℚ) ≤ max (s.turn_count : ℚ) 1 := le_max_right _ _
    intro h
    rw [h] at h1
    norm_num at h1
  · intro h
    unfold ParticipantStats.avg_words_per_turn
    rw [h]
    norm_num
    exact pyRound1_natCast s.word_count

/-- C4 witness: the statistics row with 7 words over 0 turns reports an
average of exactly 7. -/
theorem avg_words_per_turn_witness :
    exStats7.turn_count = 0 ∧ exStats7.avg_words_per_turn = 7 :=
  ⟨rfl, by simpa using (avg_words_per_turn_spec exStats7).2.2 rfl⟩

/-! ## C5 — empty and whitespace-only utterances -/

/-- C5: a missing, empty or whitespace-only utterance leaves the manager
state completely unchanged — no record is appended to either sink and no
counter or total moves. -/
theorem empty_utterance_no_effect (s : MPState) (identity timestamp : String)
    (now : Int) (text_content : Option String)
    (h : ∀ t, text_content = some t → ∀ c ∈ t.toList, pyIsSpace c = true) :
    on_user_turn_completed s identity text_content timestamp now = s := by
  cases text_content with
  | none => rfl
  | some t =>
    have hstrip := pyStrip_eq_empty t (h t rfl)
    simp [on_user_turn_completed, hstrip]

/-- C5 witness: a whitespace-only utterance is a strict no-op on a fresh
manager. -/
theorem empty_utterance_witness :
    on_user_turn_completed exFresh "A" (some " \t ") "10:00:00" 0 = exFresh :=
  empty_utterance_no_effect exFresh "A" "10:00:00" 0 (some " \t ")
    (by intro t ht; cases ht; decide)

/-! ## C9 — duplicate participant-join notifications -/

/-- C9: a join notification for an identity that already holds an active
session is a strict no-op: no `joined` record, no new session or statistics
entry, no reset of the last-speech clock. -/
theorem duplicate_join_no_op (s : MPState) (identity pname timestamp : String)
    (now : Int) (h : identity ∈ s.sessions) :
    on_participant_connected s identity pname timestamp now = s := by
  unfold on_participant_connected
  simp [h]

/-- C9 witness: joining `A` again while `A` has an active session changes
nothing. -/
theorem duplicate_join_witness :
    on_participant_connected exTwoActive "A" "" "12:00:00" 5 = exTwoActive :=
  duplicate_join_no_op exTwoActive "A" "" "12:00:00" 5 (by decide)

/-! ## C6 — gap detection -/

/-- The gap scan keeps exactly the consecutive sorted pairs whose interval
strictly exceeds 60 seconds. -/
theorem gapsOf_eq_zip_filter : ∀ times : List Nat,
    gapsOf times =
      (times.zip times.tail).filter (fun p => decide (60 < p.2 - p.1)) := by
  intro times
  induction times with
  | nil => rfl
  | cons a rest ih =>
    cases rest with
    | nil => rfl
    | cons b rest' =>
      by_cases h60 : 60 < b - a
      · simp [gapsOf, ih, h60]
      · simp [gapsOf, ih, h60]

/-- C6: gap detection emits a Gap for a consecutive pair of the time-sorted
core records exactly when the interval strictly exceeds 60 seconds; records
at 10:00:00 and 10:02:00 (36000 s and 36120 s of day, 120 s apart) produce
the single Gap (10:00:00, 10:02:00), while records at 10:00:00 and 10:00:30
(30 s apart) produce none. -/
theorem gap_detection_spec :
    (∀ core : List EventRec,
        detectGaps core =
          ((pySortBy id (core.filterMap recTime)).zip
              (pySortBy id (core.filterMap recTime)).tail).filter
            (fun p => decide (60 < p.2 - p.1))) ∧
    detectGaps (coreEvents exGapStream) = [(36000, 36120)] ∧
    detectGaps (coreEvents exNoGapStream) = [] :=
  ⟨fun _ => gapsOf_eq_zip_filter _, by decide, by decide⟩

/-! ## C2 — the group idle transition -/

/-- If some tracked active participant is under the timeout, the idle scan
aborts (the loop's `break`), whatever its position in the dict. -/
theorem idleScan_none {sessions : List String} {timeout now : Int} :
    ∀ entries : List (String × Int),
    (∃ p ∈ entries, p.1 ∈ sessions ∧ now - p.2 < timeout) →
    idleScan sessions timeout now entries = none := by
  intro entries
  induction entries with
  | nil => rintro ⟨p, hp, _⟩; cases hp
  | cons e rest ih =>
    rintro ⟨p, hp, hsess, hlt⟩
    obtain ⟨pid, last⟩ := e
    rcases List.mem_cons.mp hp with h | h
    · subst h
      simp only [idleScan, if_pos hsess, if_pos hlt]
    · by_cases hs : pid ∈ sessions
      · by_cases hlt' : now - last < timeout
        · simp only [idleScan, if_pos hs, if_pos hlt']
        · simp only [idleScan, if_pos hs, if_neg hlt', ih ⟨p, h, hsess, hlt⟩]
          rfl
      · simp only [idleScan, if_neg hs, ih ⟨p, h, hsess, hlt⟩]

/-- A completed idle scan certifies that every tracked active participant is
past the timeout. -/
theorem idleScan_some {sessions : List String} {timeout now : Int} :
    ∀ (entries : List (String × Int)) (info : List (String × Int)),
    idleScan sessions timeout now entries = some info →
    ∀ p ∈ entries, p.1 ∈ sessions → timeout ≤ now - p.2 := by
  intro entries
  induction entries with
  | nil => intro info _ p hp; cases hp
  | cons e rest ih =>
    intro info hscan p hp hpsess
    obtain ⟨pid, last⟩ := e
    by_cases hs : pid ∈ sessions
    · by_cases hlt : now - last < timeout
      · simp only [idleScan, if_pos hs, if_pos hlt] at hscan
        cases hscan
      · simp only [idleScan, if_pos hs, if_neg hlt] at hscan
        rcases Option.map_eq_some'.mp hscan with ⟨info', hscan', _⟩
        rcases List.mem_cons.mp hp with h | h
        · subst h
          exact le_of_not_lt hlt
        · exact ih info' hscan' p h hpsess
    · simp only [idleScan, if_neg hs] at hscan
      rcases List.mem_cons.mp hp with h | h
      · subst h
        exact absurd hpsess hs
      · exact ih info hscan p h hpsess

/-- C2: the group idle transition fires only when every participant with an
active session has been silent for at least the timeout, and if some tracked
active participant is below the timeout the idle check changes nothing — no
session is closed and no idle record is written. -/
theorem group_idle_spec (s : MPState) (now : Int) (ts : String)
    (hcov : ∀ id ∈ s.sessions, id ∈ s.last_speech.map Prod.fst) :
    (∀ info,
        idleScan s.sessions ((s.config.idle_timeout_minutes : Int) * 60) now
          s.last_speech = some info →
        info ≠ [] →
        ∀ id ∈ s.sessions, ∃ t, (id, t) ∈ s.last_speech ∧
          (s.config.idle_timeout_minutes : Int) * 60 ≤ now - t) ∧
    ((∃ p ∈ s.last_speech, p.1 ∈ s.sessions ∧
        now - p.2 < (s.config.idle_timeout_minutes : Int) * 60) →
      idle_check_step s now ts = s) := by
  constructor
  · intro info hscan _ id hid
    rcases List.mem_map.mp (hcov id hid) with ⟨p, hp, hfst⟩
    refine ⟨p.2, ?_, ?_⟩
    · have : p = (id, p.2) := by
        obtain ⟨a, b⟩ := p
        simp at hfst
        simp [hfst]
      rw [← this]
      exact hp
    · exact idleScan_some s.last_speech info hscan p hp (hfst ▸ hid)
  · intro hex
    unfold idle_check_step
    by_cases hempty : s.sessions = []
    · simp [hempty]
    · simp [hempty, idleScan_none s.last_speech hex]

/-- C2 witness: with A idle 10 minutes and B idle 1 minute against a 5-minute
timeout, the idle check closes nothing and writes nothing. -/
theorem group_idle_witness :
    idle_check_step exTwoActive 600 "12:00:00" = exTwoActive :=
  (group_idle_spec exTwoActive 600 "12:00:00" (by decide)).2 (by decide)

/-! ## C3 — finalize without initialize, append after finalize -/

/-- C3 counterexample: on a never-initialised manager (statistics enabled by
default) `finalize` is not a no-op — it creates the statistics artifact. -/
theorem finalize_uninitialized_not_noop :
    exFresh.isInit = false ∧ exFresh.stats_file = none ∧
    finalize_protocol_files exFresh "t" ≠ exFresh :=
  ⟨rfl, rfl, by decide⟩

/-- C3 (amended): with both sinks closed (in particular when `initialize` was
never called, and after `finalize` has closed them), `finalize` touches no
sink and changes nothing except writing the statistics artifact when
statistics are enabled (a strict no-op when they are disabled); and an append
after that reopens no sink and writes to no file — though it still refreshes
the participant's last-speech clock and, when enabled, the in-memory
statistics. -/
theorem finalize_append_closed_sinks (s : MPState) (ts p txt : String)
    (now : Int) (htxt : s.txt_open = false) (hjson : s.json_open = false) :
    finalize_protocol_files s ts =
      (if s.config.enable_statistics then { s with stats_file := some s.stats }
       else s) ∧
    (write_transcript s ts p txt now).txt_open = false ∧
    (write_transcript s ts p txt now).json_open = false ∧
    (write_transcript s ts p txt now).txt_file = s.txt_file ∧
    (write_transcript s ts p txt now).json_file = s.json_file ∧
    (write_transcript s ts p txt now).stats_file = s.stats_file ∧
    (write_transcript s ts p txt now).last_speech = setAssoc p now s.last_speech ∧
    (write_transcript s ts p txt now).stats =
      (if s.config.enable_statistics then s.stats.record_speech p txt
       else s.stats) := by
  by_cases hstat : s.config.enable_statistics = true
  · refine ⟨?_, ?_⟩
    · simp [finalize_protocol_files, htxt, hjson, hstat]
    · simp [write_transcript, htxt, hjson, hstat]
  · have hstat' : s.config.enable_statistics = false := by simpa using hstat
    refine ⟨?_, ?_⟩
    · simp [finalize_protocol_files, htxt, hjson, hstat']
    · simp [write_transcript, htxt, hjson, hstat']

/-- C3 witness: concrete instance of the amended behaviour on a fresh
manager. -/
theorem finalize_append_witness :
    finalize_protocol_files exFresh "t" =
      (if exFresh.config.enable_statistics
       then { exFresh with stats_file := some exFresh.stats } else exFresh) ∧
    (write_transcript exFresh "t" "A" "hi" 0).json_file = exFresh.json_file :=
  ⟨(finalize_append_closed_sinks exFresh "t" "A" "hi" 0 rfl rfl).1,
   (finalize_append_closed_sinks exFresh "t" "A" "hi" 0 rfl rfl).2.2.2.2.1⟩

/-! ## C7 — the appended transcript record -/

/-- C7 counterexample: the record appended for the utterance `" hi "` carries
the original, untrimmed text (the recorder strips only for the emptiness
check), so the claim that the stored text is trimmed fails. -/
theorem transcript_not_trimmed :
    (on_user_turn_completed exOpenStore "A" (some " hi ") "10:00:00" 0).json_file =
      [{ rtype := "transcript", timestamp := "10:00:00", participant := "A",
         text := " hi ", word_count := 1 }] ∧
    pyStrip " hi " ≠ " hi " :=
  ⟨by decide, by decide⟩

/-- C7 (amended): for a completed utterance with non-whitespace text, the
record appended to the open structured sink carries the utterance text
unchanged (not trimmed) together with a word count equal to the number of
maximal non-whitespace runs of that text, and the participant's last-speech
clock is set to the current time. -/
theorem transcript_record_spec (s : MPState) (identity txt timestamp : String)
    (now : Int) (hne : pyStrip txt ≠ "") (hopen : s.json_open = true) :
    (on_user_turn_completed s identity (some txt) timestamp now).json_file =
      s.json_file ++
        [{ rtype := "transcript", timestamp := timestamp,
           participant := identity, text := txt,
           word_count := countRunsAux true txt.toList }] ∧
    lookupAssoc identity
        (on_user_turn_completed s identity (some txt) timestamp now).last_speech =
      some now := by
  have hwc : wordCount txt = countRunsAux true txt.toList :=
    wordCount_eq_countRuns txt
  by_cases hstat : s.config.enable_statistics = true
  · by_cases htxt : s.txt_open = true
    · constructor
      · simp [on_user_turn_completed, hne, write_transcript, hopen, hstat, htxt, hwc]
      · simp [on_user_turn_completed, hne, write_transcript, hopen, hstat, htxt,
          lookupAssoc_setAssoc]
    · constructor
      · simp [on_user_turn_completed, hne, write_transcript, hopen, hstat, htxt, hwc]
      · simp [on_user_turn_completed, hne, write_transcript, hopen, hstat, htxt,
          lookupAssoc_setAssoc]
  · have hstat' : s.config.enable_statistics = false := by simpa using hstat
    by_cases htxt : s.txt_open = true
    · constructor
      · simp [on_user_turn_completed, hne, write_transcript, hopen, hstat', htxt, hwc]
      · simp [on_user_turn_completed, hne, write_transcript, hopen, hstat', htxt,
          lookupAssoc_setAssoc]
    · constructor
      · simp [on_user_turn_completed, hne, write_transcript, hopen, hstat', htxt, hwc]
      · simp [on_user_turn_completed, hne, write_transcript, hopen, hstat', htxt,
          lookupAssoc_setAssoc]

/-- C7 witness: concrete instance of the amended record shape. -/
theorem transcript_record_witness :
    (on_user_turn_completed exOpenStore "A" (some " hi  there ") "10:00:00" 7).json_file =
      exOpenStore.json_file ++
        [{ rtype := "transcript", timestamp := "10:00:00", participant := "A",
           text := " hi  there ",
           word_count := countRunsAux true " hi  there ".toList }] :=
  (transcript_record_spec exOpenStore "A" " hi  there " "10:00:00" 7
    (by decide) rfl).1

/-! ## C8 — lifecycle record kinds -/

/-- `write_participant_event` extends the structured sink by at most one
event record carrying the given kind. -/
theorem wpe_json_extends (s : MPState) (ts p k : String) :
    ∃ extra, (write_participant_event s ts p k).json_file = s.json_file ++ extra ∧
      ∀ r ∈ extra, r.rtype = "event" ∧ r.event = k := by
  by_cases hj : s.json_open = true
  · refine ⟨[{ rtype := "event", timestamp := ts, participant := p, event := k }],
      ?_, ?_⟩
    · by_cases ht : s.txt_open = true <;>
        simp [write_participant_event, hj, ht]
    · intro r hr
      simp at hr
      subst hr
      exact ⟨rfl, rfl⟩
  · have hj' : s.json_open = false := by simpa using hj
    refine ⟨[], ?_, by simp⟩
    by_cases ht : s.txt_open = true <;>
      simp [write_participant_event, hj', ht]

/-- `write_transcript` extends the structured sink only by transcript
records. -/
theorem wt_json_extends (s : MPState) (ts p txt : String) (now : Int) :
    ∃ extra, (write_transcript s ts p txt now).json_file = s.json_file ++ extra ∧
      ∀ r ∈ extra, r.rtype = "transcript" := by
  by_cases hj : s.json_open = true
  · refine ⟨[{ rtype := "transcript", timestamp := ts, participant := p, text := txt, word_count := wordCount txt }], ?_, ?_⟩
    · by_cases hstat : s.config.enable_statistics = true <;>
        by_cases ht : s.txt_open = true <;>
        simp [write_transcript, hj, hstat, ht]
    · intro r hr
      simp at hr
      subst hr
      rfl
  · have hj' : s.json_open = false := by simpa using hj
    refine ⟨[], ?_, by simp⟩
    by_cases hstat : s.config.enable_statistics = true <;>
      by_cases ht : s.txt_open = true <;>
      simp [write_transcript, hj', hstat, ht]

/-- `_finalize_protocol_files` extends the structured sink only by the
footer. -/
theorem finalize_json_extends (s : MPState) (ts : String) :
    ∃ extra, (finalize_protocol_files s ts).json_file = s.json_file ++ extra ∧
      ∀ r ∈ extra, r.rtype = "footer" := by
  by_cases hj : s.json_open = true
  · refine ⟨[{ rtype := "footer", ended_at := ts }], ?_, ?_⟩
    · by_cases hstat : s.config.enable_statistics = true <;>
        by_cases ht : s.txt_open = true <;>
        simp [finalize_protocol_files, hj, hstat, ht]
    · intro r hr
      simp at hr
      subst hr
      rfl
  · have hj' : s.json_open = false := by simpa using hj
    refine ⟨[], ?_, by simp⟩
    by_cases hstat : s.config.enable_statistics = true <;>
      by_cases ht : s.txt_open = true <;>
      simp [finalize_protocol_files, hj', hstat, ht]

/-- A fold whose every step extends the structured sink by records satisfying
`P` extends it by records satisfying `P`. -/
theorem foldl_json_extends {β : Type} (P : EventRec → Prop)
    (f : MPState → β → MPState)
    (hf : ∀ st b, ∃ extra, (f st b).json_file = st.json_file ++ extra ∧
      ∀ r ∈ extra, P r) :
    ∀ (l : List β) (s : MPState),
      ∃ extra, (l.foldl f s).json_file = s.json_file ++ extra ∧
        ∀ r ∈ extra, P r := by
  intro l
  induction l with
  | nil => intro s; exact ⟨[], by simp, by intro r hr; cases hr⟩
  | cons b bs ih =>
    intro s
    rcases hf s b with ⟨e1, he1, hk1⟩
    rcases ih (f s b) with ⟨e2, he2, hk2⟩
    refine ⟨e1 ++ e2, ?_, ?_⟩
    · simp only [List.foldl_cons, he2, he1, List.append_assoc]
    · intro r hr
      rcases List.mem_append.mp hr with h | h
      · exact hk1 r h
      · exact hk2 r h

/-- `_on_participant_connected` extends the structured sink only by `joined`
events. -/
theorem connect_json_extends (s : MPState) (id pname ts : String) (now : Int) :
    ∃ extra, (on_participant_connected s id pname ts now).json_file =
      s.json_file ++ extra ∧
      ∀ r ∈ extra, r.rtype = "event" ∧ r.event = "joined" := by
  by_cases hs : id ∈ s.sessions
  · refine ⟨[], ?_, by simp⟩
    simp [on_participant_connected, hs]
  · unfold on_participant_connected
    rw [if_neg hs]
    by_cases hk : hasKey id s.stats.participants = true
    · rcases wpe_json_extends
        { s with last_speech := setAssoc id now s.last_speech } ts id "joined"
        with ⟨extra, he, hkinds⟩
      refine ⟨extra, ?_, hkinds⟩
      simpa [hk] using he
    · have hk' : hasKey id s.stats.participants = false := by simpa using hk
      rcases wpe_json_extends
        { s with
          last_speech := setAssoc id now s.last_speech,
          stats := { s.stats with participants := s.stats.participants ++
            [(id, { identity := id, name := if pname = "" then id else pname,
                    joined_at := ts })] } } ts id "joined"
        with ⟨extra, he, hkinds⟩
      refine ⟨extra, ?_, hkinds⟩
      simpa [hk'] using he

/-- `_on_participant_disconnected` extends the structured sink only by `left`
events. -/
theorem disconnect_json_extends (s : MPState) (id ts : String) :
    ∃ extra, (on_participant_disconnected s id ts).json_file =
      s.json_file ++ extra ∧
      ∀ r ∈ extra, r.rtype = "event" ∧ r.event = "left" := by
  by_cases hs : id ∈ s.sessions
  · unfold on_participant_disconnected
    rw [if_pos hs]
    rcases wpe_json_extends _ ts id "left" with ⟨extra, he, hkinds⟩
    refine ⟨extra, ?_, hkinds⟩
    simpa using he
  · refine ⟨[], ?_, by simp⟩
    simp [on_participant_disconnected, hs]

/-- The idle transition extends the structured sink only by `idle_timeout`
events. -/
theorem idle_json_extends (s : MPState) (now : Int) (ts : String) :
    ∃ extra, (idle_check_step s now ts).json_file = s.json_file ++ extra ∧
      ∀ r ∈ extra, r.rtype = "event" ∧ r.event = "idle_timeout" := by
  by_cases hempty : s.sessions = []
  · refine ⟨[], ?_, by simp⟩
    simp [idle_check_step, hempty]
  · rcases hscan : idleScan s.sessions ((s.config.idle_timeout_minutes : Int) * 60)
        now s.last_speech with _ | info
    · refine ⟨[], ?_, by simp⟩
      simp [idle_check_step, hempty, hscan]
    · by_cases hinfo : info = []
      · refine ⟨[], ?_, by simp⟩
        simp [idle_check_step, hempty, hscan, hinfo]
      · have hrw : (idle_check_step s now ts).json_file =
            (info.foldl (fun st p =>
              if p.1 ∈ st.sessions then
                write_participant_event
                  { st with sessions := st.sessions.filter (fun i => !(i == p.1)) }
                  ts p.1 "idle_timeout"
              else st) s).json_file := by
          simp [idle_check_step, hempty, hscan, hinfo]
        rw [hrw]
        exact foldl_json_extends
          (fun r => r.rtype = "event" ∧ r.event = "idle_timeout")
          (fun st p =>
            if p.1 ∈ st.sessions then
              write_participant_event
                { st with sessions := st.sessions.filter (fun i => !(i == p.1)) }
                ts p.1 "idle_timeout"
            else st)
          (by
            intro st p
            by_cases hps : p.1 ∈ st.sessions
            · rcases wpe_json_extends
                { st with sessions := st.sessions.filter (fun i => !(i == p.1)) }
                ts p.1 "idle_timeout" with ⟨extra, he, hkinds⟩
              refine ⟨extra, ?_, hkinds⟩
              simpa [hps] using he
            · refine ⟨[], ?_, by simp⟩
              simp [hps])
          info s

/-- `_restart_sessions_after_idle` extends the structured sink only by
`resumed` events. -/
theorem restart_json_extends (s : MPState) (ts : String) (now : Int) :
    ∃ extra, (restart_sessions_after_idle s ts now).json_file =
      s.json_file ++ extra ∧
      ∀ r ∈ extra, r.rtype = "event" ∧ r.event = "resumed" := by
  unfold restart_sessions_after_idle
  apply foldl_json_extends
  intro st pid
  by_cases hps : pid ∈ st.sessions
  · refine ⟨[], ?_, by simp⟩
    simp [hps]
  · rcases wpe_json_extends
      { st with last_speech := setAssoc pid now st.last_speech } ts pid "resumed"
      with ⟨extra, he, hkinds⟩
    refine ⟨extra, ?_, hkinds⟩
    simpa [hps] using he

/-- Any single runtime notification extends the structured sink only by
records whose event kind, if any, is one of the written kinds. -/
theorem applyEv_json_extends (s : MPState) (ev : AgentEv) :
    ∃ extra, (applyEv s ev).json_file = s.json_file ++ extra ∧
      eventKindsOK extra := by
  cases ev with
  | connect id pname ts now =>
    rcases connect_json_extends
      { s with room := if id ∈ s.room then s.room else s.room ++ [id] }
      id pname ts now with ⟨extra, he, hkinds⟩
    refine ⟨extra, by simpa [applyEv] using he, ?_⟩
    intro r hr _
    rw [(hkinds r hr).2]
    simp [writtenKinds]
  | disconnect id ts =>
    rcases disconnect_json_extends
      { s with room := s.room.filter (fun i => !(i == id)) } id ts
      with ⟨extra, he, hkinds⟩
    refine ⟨extra, by simpa [applyEv] using he, ?_⟩
    intro r hr _
    rw [(hkinds r hr).2]
    simp [writtenKinds]
  | idleCheck ts now =>
    rcases idle_json_extends s now ts with ⟨extra, he, hkinds⟩
    refine ⟨extra, by simpa [applyEv] using he, ?_⟩
    intro r hr _
    rw [(hkinds r hr).2]
    simp [writtenKinds]
  | trackAudio id ts now =>
    show ∃ extra, (on_track_subscribed_audio s id ts now).json_file =
      s.json_file ++ extra ∧ eventKindsOK extra
    unfold on_track_subscribed_audio
    by_cases hcond : s.all_idle = true ∧ ¬ id ∈ s.sessions
    · rw [if_pos hcond]
      rcases restart_json_extends { s with all_idle := false } ts now
        with ⟨extra, he, hkinds⟩
      refine ⟨extra, by simpa using he, ?_⟩
      intro r hr _
      rw [(hkinds r hr).2]
      simp [writtenKinds]
    · rw [if_neg hcond]
      exact ⟨[], by simp, by intro r hr; cases hr⟩
  | turn id text ts now =>
    show ∃ extra, (on_user_turn_completed s id text ts now).json_file =
      s.json_file ++ extra ∧ eventKindsOK extra
    cases text with
    | none => exact ⟨[], by simp [on_user_turn_completed], by intro r hr; cases hr⟩
    | some t =>
      by_cases hst : pyStrip t = ""
      · refine ⟨[], ?_, by intro r hr; cases hr⟩
        simp [on_user_turn_completed, hst]
      · have hred : on_user_turn_completed s id (some t) ts now =
            write_transcript s ts id t now := by
          simp [on_user_turn_completed, hst]
        rw [hred]
        rcases wt_json_extends s ts id t now with ⟨extra, he, hkinds⟩
        refine ⟨extra, he, ?_⟩
        intro r hr hev
        rw [hkinds r hr] at hev
        exact absurd hev (by decide)
  | finalizeEv ts =>
    rcases finalize_json_extends s ts with ⟨extra, he, hkinds⟩
    refine ⟨extra, by simpa [applyEv] using he, ?_⟩
    intro r hr hev
    rw [hkinds r hr] at hev
    exact absurd hev (by decide)

/-- C8 (amended): every lifecycle record the live recorder ever writes to the
structured stream has kind in {joined, left, idle_timeout, resumed} (the
source writes `idle_timeout`, not the claimed `idle_paused`), and on a
group-idle transition everything appended is an `idle_timeout` event
record. -/
theorem lifecycle_kinds_spec (cfg : ProtocolConfig) (ts0 : String)
    (evs : List AgentEv) :
    eventKindsOK (runEvents cfg ts0 evs).json_file ∧
    (∀ s now ts, ∀ r ∈ (idle_check_step s now ts).json_file,
      r ∈ s.json_file ∨ (r.rtype = "event" ∧ r.event = "idle_timeout")) := by
  constructor
  · unfold runEvents
    rcases foldl_json_extends (fun r => r.rtype = "event" → r.event ∈ writtenKinds)
      applyEv (by
        intro st ev
        rcases applyEv_json_extends st ev with ⟨extra, he, hkinds⟩
        exact ⟨extra, he, hkinds⟩)
      evs (initProtocolFiles { config := cfg } ts0) with ⟨extra, he, hkinds⟩
    rw [he]
    intro r hr
    rcases List.mem_append.mp hr with h | h
    · intro hev
      exfalso
      by_cases hf2 : cfg.output_format = "json" ∨ cfg.output_format = "both"
      · by_cases hf1 : cfg.output_format = "txt" ∨ cfg.output_format = "both"
        · simp [initProtocolFiles, hf1, hf2] at h
          rw [h] at hev
          simp at hev
        · simp [initProtocolFiles, hf1, hf2] at h
          rw [h] at hev
          simp at hev
      · by_cases hf1 : cfg.output_format = "txt" ∨ cfg.output_format = "both"
        · simp [initProtocolFiles, hf1, hf2] at h
        · simp [initProtocolFiles, hf1, hf2] at h
    · exact hkinds r h
  · intro s now ts r hr
    rcases idle_json_extends s now ts with ⟨extra, he, hkinds⟩
    rw [he] at hr
    rcases List.mem_append.mp hr with h | h
    · exact Or.inl h
    · exact Or.inr (hkinds r h)

/-- C8 counterexample: the record appended when the lone idle session is
closed has kind `idle_timeout`, not `idle_paused`. -/
theorem idle_event_kind_counterexample :
    (idle_check_step exIdleState 301 "12:00:00").json_file =
      [{ rtype := "event", timestamp := "12:00:00", participant := "A",
         event := "idle_timeout" }] ∧
    ("idle_timeout" : String) ≠ "idle_paused" :=
  ⟨by decide, by decide⟩

/-- C8 witness: the record written by the concrete idle transition above is
covered by the amended kind invariant. -/
theorem lifecycle_kinds_witness :
    ({ rtype := "event", timestamp := "12:00:00", participant := "A",
       event := "idle_timeout" } : EventRec) ∈ exIdleState.json_file ∨
    (({ rtype := "event", timestamp := "12:00:00", participant := "A",
        event := "idle_timeout" } : EventRec).rtype = "event" ∧
     ({ rtype := "event", timestamp := "12:00:00", participant := "A",
        event := "idle_timeout" } : EventRec).event = "idle_timeout") :=
  (lifecycle_kinds_spec {} "h" []).2 exIdleState 301 "12:00:00" _ (by decide)

/-! ## C1/C10 — repair pipeline: sorting lemmas -/

/-- Insertion produces a permutation. -/
theorem insertByKey_perm {α : Type} (key : α → Nat) (x : α) :
    ∀ l : List α, (insertByKey key x l).Perm (x :: l) := by
  intro l
  induction l with
  | nil => simp [insertByKey]
  | cons y ys ih =>
    by_cases h : key x ≤ key y
    · simp [insertByKey, h]
    · simp only [insertByKey, if_neg h]
      exact (ih.cons y).trans (List.Perm.swap x y ys)

/-- The stable sort is a permutation of its input. -/
theorem pySortBy_perm {α : Type} (key : α → Nat) :
    ∀ l : List α, (pySortBy key l).Perm l := by
  intro l
  induction l with
  | nil => simp [pySortBy]
  | cons x xs ih =>
    have h1 : pySortBy key (x :: xs) = insertByKey key x (pySortBy key xs) := rfl
    rw [h1]
    exact (insertByKey_perm key x _).trans (ih.cons x)

/-- Insertion preserves sortedness by key. -/
theorem insertByKey_sorted {α : Type} (key : α → Nat) (x : α) :
    ∀ l : List α, l.Pairwise (fun a b => key a ≤ key b) →
    (insertByKey key x l).Pairwise (fun a b => key a ≤ key b) := by
  intro l
  induction l with
  | nil => intro _; simp [insertByKey]
  | cons y ys ih =>
    intro hp
    rcases List.pairwise_cons.mp hp with ⟨hy, hys⟩
    by_cases h : key x ≤ key y
    · simp only [insertByKey, if_pos h]
      refine List.pairwise_cons.mpr ⟨?_, hp⟩
      intro b hb
      rcases List.mem_cons.mp hb with hb | hb
      · subst hb; exact h
      · exact le_trans h (hy b hb)
    · simp only [insertByKey, if_neg h]
      refine List.pairwise_cons.mpr ⟨?_, ih hys⟩
      intro b hb
      have hb' := (insertByKey_perm key x ys).mem_iff.mp hb
      rcases List.mem_cons.mp hb' with hb' | hb'
      · subst hb'; exact le_of_not_le h
      · exact hy b hb'

/-- The stable sort sorts. -/
theorem pySortBy_sorted {α : Type} (key : α → Nat) :
    ∀ l : List α, (pySortBy key l).Pairwise (fun a b => key a ≤ key b) := by
  intro l
  induction l with
  | nil => simp [pySortBy]
  | cons x xs ih => exact insertByKey_sorted key x _ ih

/-- Inserting below everything puts the element in front. -/
theorem insertByKey_of_le {α : Type} (key : α → Nat) (x : α) (l : List α)
    (h : ∀ b ∈ l, key x ≤ key b) : insertByKey key x l = x :: l := by
  cases l with
  | nil => rfl
  | cons y ys => simp [insertByKey, h y (by simp)]

/-- Sorting an already sorted list is the identity. -/
theorem pySortBy_of_sorted {α : Type} (key : α → Nat) :
    ∀ l : List α, l.Pairwise (fun a b => key a ≤ key b) → pySortBy key l = l := by
  intro l
  induction l with
  | nil => intro _; rfl
  | cons x xs ih =>
    intro hp
    rcases List.pairwise_cons.mp hp with ⟨hx, hxs⟩
    have h1 : pySortBy key (x :: xs) = insertByKey key x (pySortBy key xs) := rfl
    rw [h1, ih hxs]
    exact insertByKey_of_le key x xs hx

/-! ## Gap-scan characterisation over sorted time lists -/

/-- In a sorted list, a detected gap consists of two members more than 60 s
apart with no member strictly between them. -/
theorem gapsOf_mem_spec : ∀ s : List Nat, s.Pairwise (· ≤ ·) →
    ∀ a b : Nat, (a, b) ∈ gapsOf s →
    a ∈ s ∧ b ∈ s ∧ 60 < b - a ∧ ∀ x ∈ s, ¬(a < x ∧ x < b) := by
  intro s
  induction s with
  | nil => intro _ a b h; cases h
  | cons x rest ih =>
    intro hp a b hab
    cases rest with
    | nil => cases hab
    | cons y rest' =>
      rcases List.pairwise_cons.mp hp with ⟨hx, hp'⟩
      have hmemtail : ∀ z ∈ y :: rest', y ≤ z := by
        intro z hz
        rcases List.mem_cons.mp hz with h | h
        · subst h; exact le_refl _
        · exact (List.pairwise_cons.mp hp').1 z h
      have hgaps : gapsOf (x :: y :: rest') =
          (if 60 < y - x then [(x, y)] else []) ++ gapsOf (y :: rest') := rfl
      rw [hgaps] at hab
      rcases List.mem_append.mp hab with h | h
      · by_cases h60 : 60 < y - x
        · rw [if_pos h60] at h
          have heq : (a, b) = (x, y) := by simpa using h
          have ha : a = x := by simpa using congrArg Prod.fst heq
          have hb : b = y := by simpa using congrArg Prod.snd heq
          subst ha
          subst hb
          refine ⟨by simp, by simp, h60, ?_⟩
          intro z hz hcon
          obtain ⟨h1, h2⟩ := hcon
          rcases List.mem_cons.mp hz with hzx | hztail
          · subst hzx; exact absurd h1 (lt_irrefl _)
          · exact absurd h2 (not_lt_of_le (hmemtail z hztail))
        · rw [if_neg h60] at h
          cases h
      · rcases ih hp' a b h with ⟨ha, hb, h60, hno⟩
        refine ⟨by simp [ha], by simp [hb], h60, ?_⟩
        intro z hz hcon
        obtain ⟨h1, h2⟩ := hcon
        rcases List.mem_cons.mp hz with hzx | hztail
        · subst hzx
          have hya : y ≤ a := hmemtail a ha
          have hxy : z ≤ y := hx y (by simp)
          omega
        · exact hno z hztail ⟨h1, h2⟩

/-- Conversely, two members more than 60 s apart with nothing strictly
between them form a detected gap. -/
theorem mem_gapsOf_spec : ∀ s : List Nat, s.Pairwise (· ≤ ·) →
    ∀ a b : Nat, a ∈ s → b ∈ s → 60 < b - a →
    (∀ x ∈ s, ¬(a < x ∧ x < b)) → (a, b) ∈ gapsOf s := by
  intro s
  induction s with
  | nil => intro _ a b ha; cases ha
  | cons x rest ih =>
    intro hp a b ha hb h60 hno
    have hab : a < b := by omega
    cases rest with
    | nil =>
      have ha' : a = x := by simpa using ha
      have hb' : b = x := by simpa using hb
      omega
    | cons y rest' =>
      rcases List.pairwise_cons.mp hp with ⟨hx, hp'⟩
      have hmemtail : ∀ z ∈ y :: rest', y ≤ z := by
        intro z hz
        rcases List.mem_cons.mp hz with h | h
        · subst h; exact le_refl _
        · exact (List.pairwise_cons.mp hp').1 z h
      have hgaps : gapsOf (x :: y :: rest') =
          (if 60 < y - x then [(x, y)] else []) ++ gapsOf (y :: rest') := rfl
      rcases List.mem_cons.mp ha with hax | hatail
      · subst hax
        have hbtail : b ∈ y :: rest' := by
          rcases List.mem_cons.mp hb with h | h
          · omega
          · exact h
        by_cases hy : y < b
        · have hya : y ≤ a := by
            have := hno y (by simp)
            omega
          have hay : a ≤ y := hx y (by simp)
          have hyeq : y = a := le_antisymm hya hay
          have htail := ih hp' a b (by rw [hyeq]; simp) hbtail h60
            (fun z hz => hno z (by simp [hz]))
          rw [hgaps]
          exact List.mem_append.mpr (Or.inr htail)
        · have hyb : y ≤ b := hmemtail b hbtail
          have hbyeq : y = b := by omega
          subst hbyeq
          rw [hgaps]
          refine List.mem_append.mpr (Or.inl ?_)
          simp [h60]
      · have hbtail : b ∈ y :: rest' := by
          rcases List.mem_cons.mp hb with h | h
          · exfalso
            have := hx a hatail
            omega
          · exact h
        have htail := ih hp' a b hatail hbtail h60
          (fun z hz => hno z (by simp [hz]))
        rw [hgaps]
        exact List.mem_append.mpr (Or.inr htail)

/-- A nonempty set of below-`t` members has a greatest one. -/
theorem exists_max_lt (t : Nat) : ∀ l : List Nat, (∃ x ∈ l, x < t) →
    ∃ a ∈ l, a < t ∧ ∀ x ∈ l, x < t → x ≤ a := by
  intro l
  induction l with
  | nil => rintro ⟨x, hx, _⟩; cases hx
  | cons y ys ih =>
    rintro ⟨x, hx, hxt⟩
    by_cases hex : ∃ z ∈ ys, z < t
    · rcases ih hex with ⟨a, ha, hat, hmax⟩
      by_cases hy : y < t
      · by_cases hya : y ≤ a
        · refine ⟨a, by simp [ha], hat, ?_⟩
          intro z hz hzt
          rcases List.mem_cons.mp hz with h | h
          · subst h; exact hya
          · exact hmax z h hzt
        · refine ⟨y, by simp, hy, ?_⟩
          intro z hz hzt
          rcases List.mem_cons.mp hz with h | h
          · subst h; exact le_refl _
          · exact le_trans (hmax z h hzt) (le_of_not_le hya)
      · refine ⟨a, by simp [ha], hat, ?_⟩
        intro z hz hzt
        rcases List.mem_cons.mp hz with h | h
        · subst h; exact absurd hzt hy
        · exact hmax z h hzt
    · have hxy : x = y := by
        rcases List.mem_cons.mp hx with h | h
        · exact h
        · exact absurd ⟨x, h, hxt⟩ hex
      refine ⟨y, by simp, hxy ▸ hxt, ?_⟩
      intro z hz hzt
      rcases List.mem_cons.mp hz with h | h
      · subst h; exact le_refl _
      · exact absurd ⟨z, h, hzt⟩ hex

/-- A nonempty set of above-`t` members has a least one. -/
theorem exists_min_gt (t : Nat) : ∀ l : List Nat, (∃ x ∈ l, t < x) →
    ∃ b ∈ l, t < b ∧ ∀ x ∈ l, t < x → b ≤ x := by
  intro l
  induction l with
  | nil => rintro ⟨x, hx, _⟩; cases hx
  | cons y ys ih =>
    rintro ⟨x, hx, hxt⟩
    by_cases hex : ∃ z ∈ ys, t < z
    · rcases ih hex with ⟨b, hb, hbt, hmin⟩
      by_cases hy : t < y
      · by_cases hyb : b ≤ y
        · refine ⟨b, by simp [hb], hbt, ?_⟩
          intro z hz hzt
          rcases List.mem_cons.mp hz with h | h
          · subst h; exact hyb
          · exact hmin z h hzt
        · refine ⟨y, by simp, hy, ?_⟩
          intro z hz hzt
          rcases List.mem_cons.mp hz with h | h
          · subst h; exact le_refl _
          · exact le_trans (le_of_not_le hyb) (hmin z h hzt)
      · refine ⟨b, by simp [hb], hbt, ?_⟩
        intro z hz hzt
        rcases List.mem_cons.mp hz with h | h
        · subst h; exact absurd hzt hy
        · exact hmin z h hzt
    · have hxy : x = y := by
        rcases List.mem_cons.mp hx with h | h
        · exact h
        · exact absurd ⟨x, h, hxt⟩ hex
      refine ⟨y, by simp, hxy ▸ hxt, ?_⟩
      intro z hz hzt
      rcases List.mem_cons.mp hz with h | h
      · subst h; exact le_refl _
      · exact absurd ⟨z, h, hzt⟩ hex

/-- Gap containment: if a denser sorted list consists of the original members
plus points strictly inside original gaps, any point strictly inside one of
its gaps is strictly inside an original gap. -/
theorem gap_containment (s1 s2 : List Nat)
    (hp1 : s1.Pairwise (· ≤ ·)) (hp2 : s2.Pairwise (· ≤ ·))
    (hsub : ∀ x ∈ s1, x ∈ s2)
    (hcover : ∀ x ∈ s2, x ∈ s1 ∨ ∃ g ∈ gapsOf s1, g.1 < x ∧ x < g.2)
    (t : Nat) (hin : ∃ g ∈ gapsOf s2, g.1 < t ∧ t < g.2) :
    ∃ g ∈ gapsOf s1, g.1 < t ∧ t < g.2 := by
  rcases hin with ⟨⟨a2, b2⟩, hg2, hta, htb⟩
  rcases gapsOf_mem_spec s2 hp2 a2 b2 hg2 with ⟨ha2, hb2, h60, hno2⟩
  have htns2 : ¬ t ∈ s2 := fun ht => hno2 t ht ⟨hta, htb⟩
  have htns1 : ¬ t ∈ s1 := fun ht => htns2 (hsub t ht)
  have hAne : ∃ x ∈ s1, x < t := by
    rcases hcover a2 ha2 with h | ⟨⟨g1, g2⟩, hg, hg1, hg2'⟩
    · exact ⟨a2, h, hta⟩
    · rcases gapsOf_mem_spec s1 hp1 g1 g2 hg with ⟨hgin, _, _, _⟩
      exact ⟨g1, hgin, lt_trans hg1 hta⟩
  have hBne : ∃ x ∈ s1, t < x := by
    rcases hcover b2 hb2 with h | ⟨⟨g1, g2⟩, hg, hg1, hg2'⟩
    · exact ⟨b2, h, htb⟩
    · rcases gapsOf_mem_spec s1 hp1 g1 g2 hg with ⟨_, hgin, _, _⟩
      exact ⟨g2, hgin, lt_trans htb hg2'⟩
  rcases exists_max_lt t s1 hAne with ⟨a1, ha1, hat, hmax⟩
  rcases exists_min_gt t s1 hBne with ⟨b1, hb1, htb1, hmin⟩
  have ha12 : a1 ≤ a2 := by
    by_contra hcon
    exact hno2 a1 (hsub a1 ha1) ⟨lt_of_not_le hcon, lt_trans hat htb⟩
  have hb21 : b2 ≤ b1 := by
    by_contra hcon
    exact hno2 b1 (hsub b1 hb1) ⟨lt_trans hta htb1, lt_of_not_le hcon⟩
  have h60' : 60 < b1 - a1 := by omega
  have hno1 : ∀ x ∈ s1, ¬(a1 < x ∧ x < b1) := by
    intro x hx hcon
    obtain ⟨hx1, hx2⟩ := hcon
    rcases lt_trichotomy x t with h | h | h
    · exact absurd (hmax x hx h) (not_le_of_lt hx1)
    · exact htns1 (h ▸ hx)
    · exact absurd (hmin x hx h) (not_le_of_lt hx2)
  exact ⟨(a1, b1), mem_gapsOf_spec s1 hp1 a1 b1 ha1 hb1 h60' hno1, hat, htb1⟩

/-! ## Trace-scan lemmas -/

/-- The stored record's timestamp is the candidate's. -/
theorem candToRec_timestamp (c : Cand) : (candToRec c).timestamp = c.timestamp := by
  unfold candToRec
  by_cases h : c.isTranscript = true <;> simp [h]

/-- The stored record is never a header or footer. -/
theorem candToRec_rtype (c : Cand) :
    (candToRec c).rtype = "transcript" ∨ (candToRec c).rtype = "event" := by
  unfold candToRec
  by_cases h : c.isTranscript = true <;> simp [h]

/-- The empty string parses as no time. -/
theorem parseHMS_empty : parseHMS "" = none := rfl

/-- When the candidate timestamp parses, the stored record's `recTime` is that
value. -/
theorem recTime_candToRec (c : Cand) (n : Nat)
    (h : parseHMS c.timestamp = some n) : recTime (candToRec c) = some n := by
  unfold recTime
  rw [candToRec_timestamp]
  have hne : ¬ c.timestamp = "" := by
    intro he
    rw [he, parseHMS_empty] at h
    cases h
  rw [if_neg hne]
  exact h

/-- The signature of the cleaned-up stored record equals the signature the
candidate was admitted under. -/
theorem get_signature_candToRec (c : Cand) :
    get_signature (candToRec c) = sigOfCand c := by
  unfold sigOfCand candToRec candRaw
  by_cases h : c.isTranscript = true
  · simp only [h, if_true]
    unfold get_signature
    simp [normText_collapseWS]
  · simp [h]

/-- Every element the trace scan admits comes from a candidate in the trace,
carries that candidate's datetime and cleaned record, lies strictly inside a
detected gap, passes the session bound, and has a signature outside the
existing-signature set. -/
theorem scanTrace_mem (gaps : List (Nat × Nat)) (esigs : List String) :
    ∀ (cs : List Cand) (rsigs : List String) (p : Nat × EventRec),
    p ∈ scanTrace gaps esigs cs rsigs →
    ∃ c ∈ cs, p = (c.evt_dt, candToRec c) ∧ inGap gaps c.evt_dt = true ∧
      SESSION_START_SEC ≤ c.evt_dt ∧ c.evt_dt ≤ SESSION_END_SEC ∧
      ¬ sigOfCand c ∈ esigs := by
  intro cs
  induction cs with
  | nil => intro rsigs p hp; cases hp
  | cons c cs' ih =>
    intro rsigs p hp
    by_cases hrange : SESSION_START_SEC ≤ c.evt_dt ∧ c.evt_dt ≤ SESSION_END_SEC
    · by_cases hgap : inGap gaps c.evt_dt = true
      · by_cases hsig : ¬ sigOfCand c ∈ esigs ∧ ¬ sigOfCand c ∈ rsigs
        · rw [show scanTrace gaps esigs (c :: cs') rsigs =
              (c.evt_dt, candToRec c) ::
                scanTrace gaps esigs cs' (sigOfCand c :: rsigs) from by
            simp [scanTrace, hrange, hgap, hsig]] at hp
          rcases List.mem_cons.mp hp with h | h
          · exact ⟨c, by simp, h, hgap, hrange.1, hrange.2, hsig.1⟩
          · rcases ih _ p h with ⟨c', hc', hrest⟩
            exact ⟨c', by simp [hc'], hrest⟩
        · rw [show scanTrace gaps esigs (c :: cs') rsigs =
              scanTrace gaps esigs cs' rsigs from by
            simp [scanTrace, hrange, hgap, hsig]] at hp
          rcases ih _ p hp with ⟨c', hc', hrest⟩
          exact ⟨c', by simp [hc'], hrest⟩
      · rw [show scanTrace gaps esigs (c :: cs') rsigs =
            scanTrace gaps esigs cs' rsigs from by
          simp [scanTrace, hrange, hgap]] at hp
        rcases ih _ p hp with ⟨c', hc', hrest⟩
        exact ⟨c', by simp [hc'], hrest⟩
    · rw [show scanTrace gaps esigs (c :: cs') rsigs =
          scanTrace gaps esigs cs' rsigs from by
        simp [scanTrace, hrange]] at hp
      rcases ih _ p hp with ⟨c', hc', hrest⟩
      exact ⟨c', by simp [hc'], hrest⟩

/-- Any candidate that reaches the deduplication check leaves its signature in
the existing set, the inherited set, or the admitted output. -/
theorem scanTrace_sig_closure (gaps : List (Nat × Nat)) (esigs : List String) :
    ∀ (cs : List Cand) (rsigs : List String) (c : Cand), c ∈ cs →
    (SESSION_START_SEC ≤ c.evt_dt ∧ c.evt_dt ≤ SESSION_END_SEC) →
    inGap gaps c.evt_dt = true →
    sigOfCand c ∈ esigs ∨ sigOfCand c ∈ rsigs ∨
      sigOfCand c ∈ (scanTrace gaps esigs cs rsigs).map
        (fun p => get_signature p.2) := by
  intro cs
  induction cs with
  | nil => intro rsigs c hc; cases hc
  | cons c0 cs' ih =>
    intro rsigs c hc hrange hgap
    rcases List.mem_cons.mp hc with hhead | htail
    · subst hhead
      by_cases hsig : ¬ sigOfCand c ∈ esigs ∧ ¬ sigOfCand c ∈ rsigs
      · refine Or.inr (Or.inr ?_)
        rw [show scanTrace gaps esigs (c :: cs') rsigs =
            (c.evt_dt, candToRec c) ::
              scanTrace gaps esigs cs' (sigOfCand c :: rsigs) from by
          simp [scanTrace, hrange, hgap, hsig]]
        simp [get_signature_candToRec]
      · rcases not_and_or.mp hsig with h | h
        · exact Or.inl (not_not.mp h)
        · exact Or.inr (Or.inl (not_not.mp h))
    · by_cases hrange0 : SESSION_START_SEC ≤ c0.evt_dt ∧ c0.evt_dt ≤ SESSION_END_SEC
      · by_cases hgap0 : inGap gaps c0.evt_dt = true
        · by_cases hsig0 : ¬ sigOfCand c0 ∈ esigs ∧ ¬ sigOfCand c0 ∈ rsigs
          · rcases ih (sigOfCand c0 :: rsigs) c htail hrange hgap with h | h | h
            · exact Or.inl h
            · rcases List.mem_cons.mp h with h' | h'
              · refine Or.inr (Or.inr ?_)
                rw [show scanTrace gaps esigs (c0 :: cs') rsigs =
                    (c0.evt_dt, candToRec c0) ::
                      scanTrace gaps esigs cs' (sigOfCand c0 :: rsigs) from by
                  simp [scanTrace, hrange0, hgap0, hsig0]]
                simp [get_signature_candToRec, h']
              · exact Or.inr (Or.inl h')
            · refine Or.inr (Or.inr ?_)
              rw [show scanTrace gaps esigs (c0 :: cs') rsigs =
                  (c0.evt_dt, candToRec c0) ::
                    scanTrace gaps esigs cs' (sigOfCand c0 :: rsigs) from by
                simp [scanTrace, hrange0, hgap0, hsig0]]
              simp only [List.map_cons, List.mem_cons]
              exact Or.inr h
          · rcases ih rsigs c htail hrange hgap with h | h | h
            · exact Or.inl h
            · exact Or.inr (Or.inl h)
            · refine Or.inr (Or.inr ?_)
              rw [show scanTrace gaps esigs (c0 :: cs') rsigs =
                  scanTrace gaps esigs cs' rsigs from by
                simp [scanTrace, hrange0, hgap0, hsig0]]
              exact h
        · rcases ih rsigs c htail hrange hgap with h | h | h
          · exact Or.inl h
          · exact Or.inr (Or.inl h)
          · refine Or.inr (Or.inr ?_)
            rw [show scanTrace gaps esigs (c0 :: cs') rsigs =
                scanTrace gaps esigs cs' rsigs from by
              simp [scanTrace, hrange0, hgap0]]
            exact h
      · rcases ih rsigs c htail hrange hgap with h | h | h
        · exact Or.inl h
        · exact Or.inr (Or.inl h)
        · refine Or.inr (Or.inr ?_)
          rw [show scanTrace gaps esigs (c0 :: cs') rsigs =
              scanTrace gaps esigs cs' rsigs from by
            simp [scanTrace, hrange0]]
          exact h

/-- If every in-range, in-gap candidate's signature is already present, the
scan admits nothing. -/
theorem scanTrace_empty (gaps : List (Nat × Nat)) (esigs : List String) :
    ∀ (cs : List Cand) (rsigs : List String),
    (∀ c ∈ cs, (SESSION_START_SEC ≤ c.evt_dt ∧ c.evt_dt ≤ SESSION_END_SEC) →
      inGap gaps c.evt_dt = true → sigOfCand c ∈ esigs) →
    scanTrace gaps esigs cs rsigs = [] := by
  intro cs
  induction cs with
  | nil => intro rsigs _; rfl
  | cons c cs' ih =>
    intro rsigs hall
    by_cases hrange : SESSION_START_SEC ≤ c.evt_dt ∧ c.evt_dt ≤ SESSION_END_SEC
    · by_cases hgap : inGap gaps c.evt_dt = true
      · have hsig : sigOfCand c ∈ esigs := hall c (by simp) hrange hgap
        rw [show scanTrace gaps esigs (c :: cs') rsigs =
            scanTrace gaps esigs cs' rsigs from by
          simp [scanTrace, hrange, hgap, hsig]]
        exact ih rsigs (fun c' hc' => hall c' (by simp [hc']))
      · rw [show scanTrace gaps esigs (c :: cs') rsigs =
            scanTrace gaps esigs cs' rsigs from by
          simp [scanTrace, hrange, hgap]]
        exact ih rsigs (fun c' hc' => hall c' (by simp [hc']))
    · rw [show scanTrace gaps esigs (c :: cs') rsigs =
          scanTrace gaps esigs cs' rsigs from by
        simp [scanTrace, hrange]]
      exact ih rsigs (fun c' hc' => hall c' (by simp [hc']))

/-! ## Structure of the repair output -/

/-- `repair` unfolded to its components. -/
theorem repair_eq (S : List EventRec) (T : List Cand) :
    repair S T = (lastHeader S).toList ++
      (pySortBy Prod.fst
        ((coreEvents S).filterMap (fun e => (mergeTime e).map (fun t => (t, e))) ++
         scanTrace (detectGaps (coreEvents S)) ((coreEvents S).map get_signature)
           T [])).map Prod.snd ++
      [(lastFooter S).getD synthFooter] := rfl

/-- The last element of a list is a member. -/
theorem mem_of_getLast?_eq {α : Type} :
    ∀ (l : List α) (a : α), l.getLast? = some a → a ∈ l := by
  intro l
  induction l with
  | nil => intro a h; cases h
  | cons x xs ih =>
    intro a h
    cases xs with
    | nil =>
      simp [List.getLast?] at h
      simp [h]
    | cons y ys =>
      rw [List.getLast?_cons_cons] at h
      exact List.mem_cons.mpr (Or.inr (ih a h))

/-- The retained header record has header type. -/
theorem lastHeader_rtype {S : List EventRec} {h : EventRec}
    (hh : lastHeader S = some h) : h.rtype = "header" := by
  have hmem := mem_of_getLast?_eq _ h hh
  have := List.mem_filter.mp hmem
  simpa using this.2

/-- The retained footer record has footer type. -/
theorem lastFooter_rtype {S : List EventRec} {f : EventRec}
    (hf : lastFooter S = some f) : f.rtype = "footer" := by
  have hmem := mem_of_getLast?_eq _ f hf
  have := List.mem_filter.mp hmem
  simpa using this.2

/-- Membership in the core records. -/
theorem mem_coreEvents {e : EventRec} {S : List EventRec} :
    e ∈ coreEvents S ↔ e ∈ S ∧ ¬ e.rtype = "header" ∧ ¬ e.rtype = "footer" := by
  unfold coreEvents
  rw [List.mem_filter]
  simp

/-- Membership in the kept pairs built from any timestamp parse `f`. -/
theorem mem_keptPairs {f : EventRec → Option Nat} {p : Nat × EventRec}
    {l : List EventRec} :
    p ∈ l.filterMap (fun e => (f e).map (fun t => (t, e))) ↔
      p.2 ∈ l ∧ f p.2 = some p.1 := by
  rw [List.mem_filterMap]
  constructor
  · rintro ⟨e, he, hmap⟩
    rcases Option.map_eq_some'.mp hmap with ⟨t, ht, hte⟩
    have h2 : p.2 = e := by rw [← hte]
    have h1 : p.1 = t := by rw [← hte]
    rw [h2, h1]
    exact ⟨he, ht⟩
  · rintro ⟨hmem, ht⟩
    exact ⟨p.2, hmem, by rw [ht]; simp⟩

/-- Reconstructing the kept pairs from their records is the identity when
every record's parsed time matches its key. -/
theorem filterMap_pairs_map_snd {f : EventRec → Option Nat} :
    ∀ l : List (Nat × EventRec), (∀ p ∈ l, f p.2 = some p.1) →
    (l.map Prod.snd).filterMap (fun e => (f e).map (fun t => (t, e))) = l := by
  intro l
  induction l with
  | nil => intro _; rfl
  | cons p ps ih =>
    intro h
    have hp := h p (by simp)
    simp [List.filterMap_cons, hp, ih (fun q hq => h q (by simp [hq]))]

/-- Extracting the parsed times of the records of a keyed pair list yields
the keys. -/
theorem filterMap_recTime_map_snd {f : EventRec → Option Nat} :
    ∀ l : List (Nat × EventRec), (∀ p ∈ l, f p.2 = some p.1) →
    (l.map Prod.snd).filterMap f = l.map Prod.fst := by
  intro l
  induction l with
  | nil => intro _; rfl
  | cons p ps ih =>
    intro h
    have hp := h p (by simp)
    simp only [List.map_cons, List.filterMap_cons, hp]
    rw [ih (fun q hq => h q (by simp [hq]))]

/-- The keys of the kept pairs are exactly the parse's successes. -/
theorem map_fst_keptPairs {f : EventRec → Option Nat} :
    ∀ l : List EventRec,
    (l.filterMap (fun e => (f e).map (fun t => (t, e)))).map Prod.fst =
      l.filterMap f := by
  intro l
  induction l with
  | nil => rfl
  | cons e es ih =>
    rcases he : f e with _ | t
    · simp [List.filterMap_cons, he, ih]
    · simp [List.filterMap_cons, he, ih]

/-- Unfolding the strict-interior gap test. -/
theorem inGap_iff {gaps : List (Nat × Nat)} {t : Nat} :
    inGap gaps t = true ↔ ∃ g ∈ gaps, g.1 < t ∧ t < g.2 := by
  unfold inGap
  simp [List.any_eq_true]

/-- An ASCII digit is not whitespace. -/
theorem not_digit_of_pyIsSpace {c : Char} (h : pyIsSpace c = true) :
    isAsciiDigit c = false := by
  unfold pyIsSpace at h
  simp only [Bool.or_eq_true, decide_eq_true_eq] at h
  rcases h with ((((h | h) | h) | h) | h) | h <;> subst h <;> decide

/-- A string accepted by the strict `%H:%M:%S` parse starts with a digit, so
stripping leading whitespace leaves it unchanged. -/
theorem dropWhile_eq_self_of_parseHMS {s : String} {t : Nat}
    (h : parseHMS s = some t) : s.toList.dropWhile pyIsSpace = s.toList := by
  cases hl : s.toList with
  | nil => rfl
  | cons c cs =>
    have hdig : isAsciiDigit c = true := by
      by_contra hd
      have hd' : isAsciiDigit c = false := by simpa using hd
      unfold parseHMS at h
      rw [hl] at h
      cases cs with
      | nil => simp [takeField, hd'] at h
      | cons c2 cs2 => simp [takeField, hd'] at h
    have hnsp : pyIsSpace c = false := by
      by_contra hsp
      have hsp' : pyIsSpace c = true := by simpa using hsp
      rw [not_digit_of_pyIsSpace hsp'] at hdig
      cases hdig
    simp [List.dropWhile_cons, hnsp]

/-- The merge-site parse agrees with the strict parse whenever the latter
succeeds. -/
theorem mergeTime_of_recTime {e : EventRec} {t : Nat}
    (h : recTime e = some t) : mergeTime e = some t := by
  unfold recTime at h
  by_cases he : e.timestamp = ""
  · rw [if_pos he] at h
    cases h
  · rw [if_neg he] at h
    unfold mergeTime
    rw [if_neg he, dropWhile_eq_self_of_parseHMS h]
    have hmk : String.mk e.timestamp.toList = e.timestamp := rfl
    rw [hmk]
    exact h

/-- Two parses that agree on a list give the same filterMap. -/
theorem filterMap_eq_of_agree {f g : EventRec → Option Nat} :
    ∀ l : List EventRec, (∀ e ∈ l, f e = g e) →
    l.filterMap f = l.filterMap g := by
  intro l
  induction l with
  | nil => intro _; rfl
  | cons e es ih =>
    intro h
    rw [List.filterMap_cons, List.filterMap_cons, h e (by simp),
      ih (fun x hx => h x (by simp [hx]))]

/-- On a stream whose core timestamps all pass the strict parse, the two
parse sites coincide. -/
theorem filterMap_merge_eq_recTime (S : List EventRec)
    (hS : ∀ e ∈ coreEvents S, (recTime e).isSome = true) :
    (coreEvents S).filterMap mergeTime = (coreEvents S).filterMap recTime := by
  refine filterMap_eq_of_agree _ ?_
  intro e he
  rcases Option.isSome_iff_exists.mp (hS e he) with ⟨t, ht⟩
  rw [mergeTime_of_recTime ht, ht]

/-- On a well-formed stream, every time key in the merged list is its
record's strictly parsed time. -/
theorem repair_pairs_time (S : List EventRec) (T : List Cand)
    (hT : ∀ c ∈ T, parseHMS c.timestamp = some c.evt_dt)
    (hS : ∀ e ∈ coreEvents S, (recTime e).isSome = true) :
    ∀ p ∈ (coreEvents S).filterMap (fun e => (mergeTime e).map (fun t => (t, e))) ++
        scanTrace (detectGaps (coreEvents S)) ((coreEvents S).map get_signature)
          T [],
      recTime p.2 = some p.1 := by
  intro p hp
  rcases List.mem_append.mp hp with h | h
  · obtain ⟨hmem, hmt⟩ := mem_keptPairs.mp h
    rcases Option.isSome_iff_exists.mp (hS p.2 hmem) with ⟨t, ht⟩
    rw [mergeTime_of_recTime ht] at hmt
    rw [ht]
    exact hmt
  · rcases scanTrace_mem _ _ T [] p h with ⟨c, hc, hpe, _, _, _, _⟩
    rw [hpe]
    exact recTime_candToRec c c.evt_dt (hT c hc)

/-- No record of the merged middle part is a header or a footer. -/
theorem mem_repair_mid (S : List EventRec) (T : List Cand) (e : EventRec)
    (he : e ∈ (pySortBy Prod.fst
        ((coreEvents S).filterMap (fun e => (mergeTime e).map (fun t => (t, e))) ++
         scanTrace (detectGaps (coreEvents S)) ((coreEvents S).map get_signature)
           T [])).map Prod.snd) :
    ¬ e.rtype = "header" ∧ ¬ e.rtype = "footer" := by
  rcases List.mem_map.mp he with ⟨p, hp, hpe⟩
  have hp' := (pySortBy_perm Prod.fst _).mem_iff.mp hp
  subst hpe
  rcases List.mem_append.mp hp' with h | h
  · have hmem := (mem_keptPairs.mp h).1
    exact (mem_coreEvents.mp hmem).2
  · rcases scanTrace_mem _ _ T [] p h with ⟨c, hc, hpe2, _, _, _, _⟩
    rw [hpe2]
    rcases candToRec_rtype c with h' | h'
    · rw [show ((c.evt_dt, candToRec c) : Nat × EventRec).snd = candToRec c from rfl, h']
      exact ⟨by decide, by decide⟩
    · rw [show ((c.evt_dt, candToRec c) : Nat × EventRec).snd = candToRec c from rfl, h']
      exact ⟨by decide, by decide⟩

/-- Core extraction distributes over append. -/
theorem coreEvents_append (l1 l2 : List EventRec) :
    coreEvents (l1 ++ l2) = coreEvents l1 ++ coreEvents l2 := by
  unfold coreEvents
  exact List.filter_append _ _

/-- The core of the repaired stream is exactly the merged middle part. -/
theorem coreEvents_repair (S : List EventRec) (T : List Cand) :
    coreEvents (repair S T) =
      (pySortBy Prod.fst
        ((coreEvents S).filterMap (fun e => (mergeTime e).map (fun t => (t, e))) ++
         scanTrace (detectGaps (coreEvents S)) ((coreEvents S).map get_signature)
           T [])).map Prod.snd := by
  rw [repair_eq, coreEvents_append, coreEvents_append]
  have hhead : coreEvents (lastHeader S).toList = [] := by
    rcases hh : lastHeader S with _ | h
    · rfl
    · have := lastHeader_rtype hh
      simp [coreEvents, this]
  have hfoot : coreEvents [(lastFooter S).getD synthFooter] = [] := by
    rcases hf : lastFooter S with _ | f
    · simp [coreEvents, synthFooter]
    · have := lastFooter_rtype hf
      simp [coreEvents, this]
  have hmid : coreEvents ((pySortBy Prod.fst
      ((coreEvents S).filterMap (fun e => (mergeTime e).map (fun t => (t, e))) ++
       scanTrace (detectGaps (coreEvents S)) ((coreEvents S).map get_signature)
         T [])).map Prod.snd) =
      (pySortBy Prod.fst
        ((coreEvents S).filterMap (fun e => (mergeTime e).map (fun t => (t, e))) ++
         scanTrace (detectGaps (coreEvents S)) ((coreEvents S).map get_signature)
           T [])).map Prod.snd := by
    refine List.filter_eq_self.mpr ?_
    intro e he
    have := mem_repair_mid S T e he
    simp [this.1, this.2]
  rw [hhead, hfoot, hmid]
  simp

/-- The repaired stream keeps the original header. -/
theorem lastHeader_repair (S : List EventRec) (T : List Cand) :
    lastHeader (repair S T) = lastHeader S := by
  have hfilter : (repair S T).filter (fun e => e.rtype == "header") =
      (lastHeader S).toList := by
    rw [repair_eq, List.filter_append, List.filter_append]
    have h1 : (lastHeader S).toList.filter (fun e => e.rtype == "header") =
        (lastHeader S).toList := by
      rcases hh : lastHeader S with _ | h
      · rfl
      · have := lastHeader_rtype hh
        simp [this]
    have hmid : ((pySortBy Prod.fst
        ((coreEvents S).filterMap (fun e => (mergeTime e).map (fun t => (t, e))) ++
         scanTrace (detectGaps (coreEvents S)) ((coreEvents S).map get_signature)
           T [])).map Prod.snd).filter (fun e => e.rtype == "header") = [] := by
      rw [List.filter_eq_nil_iff]
      intro e he
      have := mem_repair_mid S T e he
      simp [this.1]
    have hfoot : ([(lastFooter S).getD synthFooter].filter
        (fun e => e.rtype == "header")) = [] := by
      rcases hf : lastFooter S with _ | f
      · simp [synthFooter]
      · have := lastFooter_rtype hf
        simp [this]
    rw [h1, hmid, hfoot]
    simp
  show ((repair S T).filter (fun e => e.rtype == "header")).getLast? = lastHeader S
  rw [hfilter]
  rcases lastHeader S with _ | h
  · rfl
  · rfl

/-- The repaired stream always carries its footer: the original one or the
synthesised one. -/
theorem lastFooter_repair (S : List EventRec) (T : List Cand) :
    lastFooter (repair S T) = some ((lastFooter S).getD synthFooter) := by
  have hfilter : (repair S T).filter (fun e => e.rtype == "footer") =
      [(lastFooter S).getD synthFooter] := by
    rw [repair_eq, List.filter_append, List.filter_append]
    have hhead : (lastHeader S).toList.filter (fun e => e.rtype == "footer") = [] := by
      rcases hh : lastHeader S with _ | h
      · rfl
      · have := lastHeader_rtype hh
        simp [this]
    have hmid : ((pySortBy Prod.fst
        ((coreEvents S).filterMap (fun e => (mergeTime e).map (fun t => (t, e))) ++
         scanTrace (detectGaps (coreEvents S)) ((coreEvents S).map get_signature)
           T [])).map Prod.snd).filter (fun e => e.rtype == "footer") = [] := by
      rw [List.filter_eq_nil_iff]
      intro e he
      have := mem_repair_mid S T e he
      simp [this.2]
    have hfoot : ([(lastFooter S).getD synthFooter].filter
        (fun e => e.rtype == "footer")) = [(lastFooter S).getD synthFooter] := by
      rcases hf : lastFooter S with _ | f
      · simp [synthFooter]
      · have := lastFooter_rtype hf
        simp [this]
    rw [hhead, hmid, hfoot]
    simp
  show ((repair S T).filter (fun e => e.rtype == "footer")).getLast? =
    some ((lastFooter S).getD synthFooter)
  rw [hfilter]
  rfl

/-- Under the two well-formedness hypotheses, the second repair pass admits no
trace candidate: any candidate strictly inside a gap of the repaired stream
was already strictly inside a gap of the original stream, so its signature is
present in the repaired stream's signature set. -/
theorem scanTrace_second_empty (S : List EventRec) (T : List Cand)
    (hT : ∀ c ∈ T, parseHMS c.timestamp = some c.evt_dt)
    (hS : ∀ e ∈ coreEvents S, (recTime e).isSome = true) :
    scanTrace (detectGaps (coreEvents (repair S T)))
      ((coreEvents (repair S T)).map get_signature) T [] = [] := by
  apply scanTrace_empty
  intro c hc hrange hgap2
  have hpairs := repair_pairs_time S T hT hS
  have hpairs1 : ∀ p ∈ pySortBy Prod.fst
      ((coreEvents S).filterMap (fun e => (mergeTime e).map (fun t => (t, e))) ++
       scanTrace (detectGaps (coreEvents S)) ((coreEvents S).map get_signature)
         T []),
      recTime p.2 = some p.1 := by
    intro p hp
    exact hpairs p ((pySortBy_perm Prod.fst _).mem_iff.mp hp)
  -- the repaired stream's gap-scan input is the sorted key list
  have htimes2 : (coreEvents (repair S T)).filterMap recTime =
      (pySortBy Prod.fst
        ((coreEvents S).filterMap (fun e => (mergeTime e).map (fun t => (t, e))) ++
         scanTrace (detectGaps (coreEvents S)) ((coreEvents S).map get_signature)
           T [])).map Prod.fst := by
    rw [coreEvents_repair]
    exact filterMap_recTime_map_snd _ hpairs1
  have hsortedfst : ((pySortBy Prod.fst
      ((coreEvents S).filterMap (fun e => (mergeTime e).map (fun t => (t, e))) ++
       scanTrace (detectGaps (coreEvents S)) ((coreEvents S).map get_signature)
         T [])).map Prod.fst).Pairwise (· ≤ ·) :=
    List.pairwise_map.mpr (pySortBy_sorted Prod.fst _)
  have hgaps2 : detectGaps (coreEvents (repair S T)) =
      gapsOf ((pySortBy Prod.fst
        ((coreEvents S).filterMap (fun e => (mergeTime e).map (fun t => (t, e))) ++
         scanTrace (detectGaps (coreEvents S)) ((coreEvents S).map get_signature)
           T [])).map Prod.fst) := by
    unfold detectGaps
    rw [htimes2, pySortBy_of_sorted id _ hsortedfst]
    rfl
  -- the original stream's sorted times
  have hp1 : (pySortBy id ((coreEvents S).filterMap recTime)).Pairwise (· ≤ ·) :=
    pySortBy_sorted id _
  have hgaps1 : detectGaps (coreEvents S) =
      gapsOf (pySortBy id ((coreEvents S).filterMap recTime)) := rfl
  -- membership transfers between the two time lists
  have hsub : ∀ x ∈ pySortBy id ((coreEvents S).filterMap recTime),
      x ∈ (pySortBy Prod.fst
        ((coreEvents S).filterMap (fun e => (mergeTime e).map (fun t => (t, e))) ++
         scanTrace (detectGaps (coreEvents S)) ((coreEvents S).map get_signature)
           T [])).map Prod.fst := by
    intro x hx
    have hx1 : x ∈ (coreEvents S).filterMap recTime :=
      (pySortBy_perm id _).mem_iff.mp hx
    rw [← filterMap_merge_eq_recTime S hS, ← map_fst_keptPairs] at hx1
    rcases List.mem_map.mp hx1 with ⟨p, hp, hpe⟩
    refine List.mem_map.mpr ⟨p, ?_, hpe⟩
    exact ((pySortBy_perm Prod.fst _).mem_iff).mpr
      (List.mem_append.mpr (Or.inl hp))
  have hcover : ∀ x ∈ (pySortBy Prod.fst
      ((coreEvents S).filterMap (fun e => (mergeTime e).map (fun t => (t, e))) ++
       scanTrace (detectGaps (coreEvents S)) ((coreEvents S).map get_signature)
         T [])).map Prod.fst,
      x ∈ pySortBy id ((coreEvents S).filterMap recTime) ∨
      ∃ g ∈ gapsOf (pySortBy id ((coreEvents S).filterMap recTime)),
        g.1 < x ∧ x < g.2 := by
    intro x hx
    rcases List.mem_map.mp hx with ⟨p, hp, hpe⟩
    have hp' := (pySortBy_perm Prod.fst _).mem_iff.mp hp
    rcases List.mem_append.mp hp' with h | h
    · left
      refine ((pySortBy_perm id _).mem_iff).mpr ?_
      rw [← filterMap_merge_eq_recTime S hS, ← map_fst_keptPairs]
      exact List.mem_map.mpr ⟨p, h, hpe⟩
    · right
      rcases scanTrace_mem _ _ T [] p h with ⟨c', hc', hpe2, hgap', _, _, _⟩
      rw [← hpe, hpe2]
      rw [hgaps1] at hgap'
      exact inGap_iff.mp hgap'
  -- the candidate's datetime lies strictly inside an original gap
  have hgap1 : inGap (detectGaps (coreEvents S)) c.evt_dt = true := by
    rw [hgaps1]
    rw [hgaps2] at hgap2
    refine inGap_iff.mpr ?_
    exact gap_containment _ _ hp1 hsortedfst hsub hcover c.evt_dt
      (inGap_iff.mp hgap2)
  -- so the first pass already accounted for its signature
  rcases scanTrace_sig_closure (detectGaps (coreEvents S))
      ((coreEvents S).map get_signature) T [] c hc hrange hgap1 with h | h | h
  · -- present among the original core signatures; the record was kept
    rcases List.mem_map.mp h with ⟨e, he, hesig⟩
    have hsome := hS e he
    rcases Option.isSome_iff_exists.mp hsome with ⟨t, ht⟩
    have hkept : ((t, e) : Nat × EventRec) ∈
        (coreEvents S).filterMap (fun e => (mergeTime e).map (fun t => (t, e))) :=
      mem_keptPairs.mpr ⟨he, mergeTime_of_recTime ht⟩
    rw [coreEvents_repair]
    refine List.mem_map.mpr ⟨e, ?_, hesig⟩
    refine List.mem_map.mpr ⟨(t, e), ?_, rfl⟩
    exact ((pySortBy_perm Prod.fst _).mem_iff).mpr
      (List.mem_append.mpr (Or.inl hkept))
  · cases h
  · -- present among the restored signatures; the restored record was merged
    rcases List.mem_map.mp h with ⟨p, hp, hpsig⟩
    rw [coreEvents_repair]
    refine List.mem_map.mpr ⟨p.2, ?_, hpsig⟩
    refine List.mem_map.mpr ⟨p, ?_, rfl⟩
    exact ((pySortBy_perm Prod.fst _).mem_iff).mpr
      (List.mem_append.mpr (Or.inr hp))

/-- C1 (amended): a second repair pass over its own output emits exactly the
same record stream, provided (i) every trace candidate's recorded timestamp
parses to the very time used for the trace line's gap test (true for
lifecycle lines, and for transcript lines whose bracketed time matches the
log time), and (ii) every core record of the input stream carries a parseable
timestamp.  Without (i) a transcript line whose bracketed time differs from
its log time shifts the second pass's gaps and can admit a new record; see
the counterexample. -/
theorem repair_idempotent_amended (S : List EventRec) (T : List Cand)
    (hT : ∀ c ∈ T, parseHMS c.timestamp = some c.evt_dt)
    (hS : ∀ e ∈ coreEvents S, (recTime e).isSome = true) :
    repair (repair S T) T = repair S T := by
  have hpairs1 : ∀ p ∈ pySortBy Prod.fst
      ((coreEvents S).filterMap (fun e => (mergeTime e).map (fun t => (t, e))) ++
       scanTrace (detectGaps (coreEvents S)) ((coreEvents S).map get_signature)
         T []),
      recTime p.2 = some p.1 := by
    intro p hp
    exact repair_pairs_time S T hT hS p ((pySortBy_perm Prod.fst _).mem_iff.mp hp)
  have hpairs1m : ∀ p ∈ pySortBy Prod.fst
      ((coreEvents S).filterMap (fun e => (mergeTime e).map (fun t => (t, e))) ++
       scanTrace (detectGaps (coreEvents S)) ((coreEvents S).map get_signature)
         T []),
      mergeTime p.2 = some p.1 :=
    fun p hp => mergeTime_of_recTime (hpairs1 p hp)
  have hkept2 : (coreEvents (repair S T)).filterMap
      (fun e => (mergeTime e).map (fun t => (t, e))) =
      pySortBy Prod.fst
        ((coreEvents S).filterMap (fun e => (mergeTime e).map (fun t => (t, e))) ++
         scanTrace (detectGaps (coreEvents S)) ((coreEvents S).map get_signature)
           T []) := by
    rw [coreEvents_repair]
    exact filterMap_pairs_map_snd _ hpairs1m
  rw [repair_eq (repair S T) T, scanTrace_second_empty S T hT hS, hkept2,
    List.append_nil,
    pySortBy_of_sorted Prod.fst _ (pySortBy_sorted Prod.fst _),
    lastHeader_repair, lastFooter_repair]
  rw [repair_eq S T]
  rfl

/-- C1 counterexample: the claim fails as stated.  The stream `exStream` has
records at 20:00:00 and 20:05:00 (one 5-minute gap).  The trace line
`exCandSkew` is logged at 20:01:00 — inside the gap, so pass one restores it —
but its bracketed (stored) time reads 20:20:00.  The trace line `exCandLate`
at 20:10:00 is outside the original gap and is rejected by pass one.  Pass two
re-sorts by the stored times, finds the new gap 20:05:00 → 20:20:00, and now
admits `exCandLate`: a record emitted by the second pass but not the first. -/
theorem repair_not_idempotent :
    candToRec exCandLate ∈ repair (repair exStream exTrace) exTrace ∧
    ¬ candToRec exCandLate ∈ repair exStream exTrace := by
  constructor
  · decide
  · decide

/-- C1 witness: with agreeing trace times and a well-formed stream, the
second pass reproduces the first exactly. -/
theorem repair_idempotent_witness :
    (∀ c ∈ exGoodTrace, parseHMS c.timestamp = some c.evt_dt) ∧
    repair (repair exStream exGoodTrace) exGoodTrace =
      repair exStream exGoodTrace :=
  ⟨by decide,
   repair_idempotent_amended exStream exGoodTrace (by decide) (by decide)⟩

/-! ## C10 — unparseable timestamps -/

/-- Dropping the unparseable-timestamp records does not change the gap-scan
input. -/
theorem filterMap_recTime_filter_isSome :
    ∀ l : List EventRec,
    (l.filter (fun x => (recTime x).isSome)).filterMap recTime =
      l.filterMap recTime := by
  intro l
  induction l with
  | nil => rfl
  | cons x xs ih =>
    rcases hx : recTime x with _ | t
    · simp [List.filter_cons, List.filterMap_cons, hx, ih]
    · simp [List.filter_cons, List.filterMap_cons, hx, ih]

/-- C10 counterexample: the claim fails as stated.  The record stamped
`" 1:02:03"` fails the strict `%H:%M:%S` parse of the gap-detection site
(line 122), so gap detection never sees it — yet the merge site (line 202)
parses `f"2026-01-29 {ts}"` with `%Y-%m-%d %H:%M:%S`, whose literal space
matches the regex `\s+` and absorbs the leading whitespace, so the record is
accepted there and appears in the repaired structured stream. -/
theorem leading_whitespace_timestamp_merged :
    recTime exWsRec = none ∧ mergeTime exWsRec = some 3723 ∧
    detectGaps (coreEvents [exWsRec]) = [] ∧
    exWsRec ∈ repair [exWsRec] [] := by
  refine ⟨by decide, by decide, by decide, by decide⟩

/-- C10 (amended): a core record whose timestamp is missing or fails even the
merge-site parse — `%H:%M:%S` applied after discarding leading whitespace —
never appears in the repaired structured stream (from which the text
transcript is rendered); such a record also fails the strict parse, and gap
detection in any case sees only the strictly parseable timestamps.  Parse
failures are absorbed, never raised (`repair` is total).  A timestamp that
fails only the strict parse, such as `" 1:02:03"`, is skipped by gap
detection but still merged into the output. -/
theorem unparseable_timestamp_excluded (S : List EventRec) (T : List Cand)
    (e : EventRec) (he : e ∈ coreEvents S) (hbad : mergeTime e = none) :
    recTime e = none ∧ ¬ e ∈ repair S T ∧
    detectGaps (coreEvents S) =
      detectGaps ((coreEvents S).filter (fun x => (recTime x).isSome)) := by
  refine ⟨?_, ?_, ?_⟩
  · rcases hrec : recTime e with _ | t
    · rfl
    · rw [mergeTime_of_recTime hrec] at hbad
      cases hbad
  · intro hmem
    rw [repair_eq] at hmem
    rcases List.mem_append.mp hmem with h | h
    · rcases List.mem_append.mp h with h | h
      · rcases hh : lastHeader S with _ | hd
        · rw [hh] at h
          cases h
        · rw [hh] at h
          simp at h
          have h1 := lastHeader_rtype hh
          have h2 := (mem_coreEvents.mp he).2.1
          rw [h] at h2
          exact h2 h1
      · rcases List.mem_map.mp h with ⟨p, hp, hpe⟩
        have hp' := (pySortBy_perm Prod.fst _).mem_iff.mp hp
        rcases List.mem_append.mp hp' with hk | hr
        · have hteq := (mem_keptPairs.mp hk).2
          rw [hpe, hbad] at hteq
          cases hteq
        · rcases scanTrace_mem _ _ T [] p hr with ⟨c, hc, hpe2, _, _, _, hsig⟩
          apply hsig
          have hsigp : get_signature p.2 = sigOfCand c := by
            rw [hpe2]
            exact get_signature_candToRec c
          rw [← hsigp, hpe]
          exact List.mem_map.mpr ⟨e, he, rfl⟩
    · simp at h
      have hf : ((lastFooter S).getD synthFooter).rtype = "footer" := by
        rcases hff : lastFooter S with _ | f
        · rfl
        · simpa using lastFooter_rtype hff
      have h2 := (mem_coreEvents.mp he).2.2
      rw [h] at h2
      exact h2 hf
  · unfold detectGaps
    rw [filterMap_recTime_filter_isSome]

/-- C10 witness: the record stamped `99:99:99` fails both parses and is
silently excluded from the repaired stream. -/
theorem unparseable_timestamp_witness :
    recTime exBadRec = none ∧ ¬ exBadRec ∈ repair [exBadRec] [] :=
  ⟨(unparseable_timestamp_excluded [exBadRec] [] exBadRec (by decide)
      (by decide)).1,
   (unparseable_timestamp_excluded [exBadRec] [] exBadRec (by decide)
      (by decide)).2.1⟩
